import Mathlib

/-!
Verification of the `b2tocf` virtual-bucket worker.

The development shallowly embeds the TypeScript sources:
  * `src/core/cluster.ts`  — cluster index manager (placement, listing,
    put/delete/rebuild over the KV-persisted index),
  * `src/core/auth.ts`     — AWS Signature V4 inbound verifier,
  * `src/index.ts`         — the HTTP router (current revision), whose PUT
    pipeline sequences delete-before-write.

Strings are modelled as `List Char` (`Str`), JavaScript objects holding the
index as association lists in property-insertion order, JavaScript `Map`s as
association lists with `mapSet`/`mapGet`, and machine integers as `Nat`
(all the sizes involved are non-negative byte counts).  Network effects are
modelled by passing the backend's response as explicit parameters and by
recording physical calls / KV persists in an event trace.
-/

/-- Strings as lists of characters (JS strings, modulo surrogate details). -/
abbrev Str := List Char

namespace B2CF

/-- `FileMetadata` from `cluster.ts`: one index entry. -/
structure FileMetadata where
  bucket : Str
  size : Nat
  lastModified : Nat
  etag : Str
  versionId : Option Str
deriving DecidableEq, Repr

/-- `ClusterIndex`: the JS object `Record<string, FileMetadata>`,
as an association list in property-insertion order. -/
abbrev ClusterIndex := List (Str × FileMetadata)

/-- Property read `index[key]` (a JS object has at most one property per
name; on such lists this is the unique binding). -/
def lookupKey (idx : ClusterIndex) (k : Str) : Option FileMetadata :=
  (idx.find? (fun e => e.1 = k)).map (·.2)

/-- Property write `index[key] = m`: overwrite in place, else append. -/
def setKey (idx : ClusterIndex) (k : Str) (m : FileMetadata) : ClusterIndex :=
  match idx with
  | [] => [(k, m)]
  | e :: t => if e.1 = k then (k, m) :: t else e :: setKey t k m

/-- Property delete `delete index[key]`. -/
def eraseKey (idx : ClusterIndex) (k : Str) : ClusterIndex :=
  idx.filter (fun e => ¬ e.1 = k)

/-- Total number of bytes the index attributes to backend `b`
(the sum of `sizeBytes` grouped by `backendName`). -/
def bucketTotal (idx : ClusterIndex) (b : Str) : Nat :=
  (idx.map (fun e => if e.2.bucket = b then e.2.size else 0)).sum

/-- JS `Map` with `Nat` values, in key-insertion order. -/
abbrev UsageMap := List (Str × Nat)

/-- `map.get(k) || 0` (absent and `0` both read back as `0`). -/
def mapGet (m : UsageMap) (k : Str) : Nat :=
  ((m.find? (fun e => e.1 = k)).map (·.2)).getD 0

/-- `map.set(k, v)`: update in place, else append at the end. -/
def mapSet (m : UsageMap) (k : Str) (v : Nat) : UsageMap :=
  match m with
  | [] => [(k, v)]
  | e :: t => if e.1 = k then (k, v) :: t else e :: mapSet t k v

/-- The `bucketUsage` map built by `selectBucketForUpload`: every configured
name starts at 0, then every index entry adds its size to its bucket. -/
def computeUsage (configs : List Str) (idx : ClusterIndex) : UsageMap :=
  let init := configs.foldl (fun m n => mapSet m n 0) []
  idx.foldl (fun m e => mapSet m e.2.bucket (mapGet m e.2.bucket + e.2.size)) init

/-- The comparator of the `balanced` strategy (`a.usage - b.usage`, a stable
ascending sort on usage). -/
def usageLe (a b : Str × Nat) : Bool := a.2 ≤ b.2

/-- `ClusterManager.selectBucketForUpload`.  `maxBytes` is the capacity
ceiling already converted to bytes; `strategy` is `env.UPLOAD_STRATEGY`
(any value other than `"balanced"` behaves as `fill-first`). -/
def selectBucketForUpload (configs : List Str) (idx : ClusterIndex)
    (maxBytes : Nat) (strategy : Str) (fileSize : Nat) : Option Str :=
  let usageList := computeUsage configs idx
  let sorted := if strategy = "balanced".data then usageList.mergeSort usageLe else usageList
  (sorted.find? (fun u => u.2 + fileSize < maxBytes)).map (·.1)

/-! ### Association-map lemmas -/

theorem mapGet_nil (j : Str) : mapGet [] j = 0 := rfl

theorem mapGet_cons (e : Str × Nat) (t : UsageMap) (j : Str) :
    mapGet (e :: t) j = if e.1 = j then e.2 else mapGet t j := by
  by_cases h : e.1 = j <;> simp [mapGet, List.find?, h]

theorem mapSet_cons_eq (e : Str × Nat) (t : UsageMap) (k : Str) (v : Nat)
    (h : e.1 = k) : mapSet (e :: t) k v = (k, v) :: t := by
  simp [mapSet, h]

theorem mapSet_cons_ne (e : Str × Nat) (t : UsageMap) (k : Str) (v : Nat)
    (h : ¬ e.1 = k) : mapSet (e :: t) k v = e :: mapSet t k v := by
  simp [mapSet, h]

theorem mapGet_mapSet (m : UsageMap) (k : Str) (v : Nat) (j : Str) :
    mapGet (mapSet m k v) j = if j = k then v else mapGet m j := by
  induction m with
  | nil =>
    by_cases h : j = k
    · subst h; simp [mapSet, mapGet_cons]
    · simp [mapSet, mapGet_cons, Ne.symm h, h, mapGet_nil]
  | cons e t ih =>
    by_cases hek : e.1 = k
    · rw [mapSet_cons_eq e t k v hek]
      by_cases hjk : j = k
      · subst hjk; simp [mapGet_cons]
      · have h1 : ¬ (k = j) := Ne.symm hjk
        have h2 : ¬ (e.1 = j) := by rw [hek]; exact h1
        simp [mapGet_cons, h1, h2, hjk]
    · rw [mapSet_cons_ne e t k v hek, mapGet_cons, mapGet_cons, ih]
      by_cases hje : e.1 = j
      · have hjk : ¬ j = k := by
          intro hh; exact hek (by rw [hje, hh])
        simp [hje, hjk]
      · simp [hje]

theorem mapSet_of_not_mem (m : UsageMap) (k : Str) (v : Nat)
    (h : k ∉ m.map Prod.fst) : mapSet m k v = m ++ [(k, v)] := by
  induction m with
  | nil => simp [mapSet]
  | cons e t ih =>
    simp only [List.map_cons, List.mem_cons] at h
    push_neg at h
    have h1 : ¬ e.1 = k := fun hh => h.1 hh.symm
    rw [mapSet_cons_ne e t k v h1, ih h.2]
    simp

theorem keys_mapSet_of_mem (m : UsageMap) (k : Str) (v : Nat)
    (h : k ∈ m.map Prod.fst) :
    (mapSet m k v).map Prod.fst = m.map Prod.fst := by
  induction m with
  | nil => simp at h
  | cons e t ih =>
    by_cases hek : e.1 = k
    · rw [mapSet_cons_eq e t k v hek]; simp [hek]
    · simp only [List.map_cons, List.mem_cons] at h
      rcases h with h | h
      · exact absurd h.symm hek
      · rw [mapSet_cons_ne e t k v hek]
        simp [ih h]

theorem mapGet_map_apply (f : Str → Nat) (cfgs : List Str) (b : Str)
    (hb : b ∈ cfgs) : mapGet (cfgs.map (fun c => (c, f c))) b = f b := by
  induction cfgs with
  | nil => simp at hb
  | cons c cs ih =>
    by_cases hcb : c = b
    · subst hcb; simp [mapGet_cons]
    · have hmem : b ∈ cs := by
        rcases List.mem_cons.mp hb with h | h
        · exact absurd h.symm hcb
        · exact h
      simp [mapGet_cons, hcb, ih hmem]

theorem mapGet_map_not_mem (f : Str → Nat) (cfgs : List Str) (b : Str)
    (hb : b ∉ cfgs) : mapGet (cfgs.map (fun c => (c, f c))) b = 0 := by
  induction cfgs with
  | nil => simp [mapGet_nil]
  | cons c cs ih =>
    have h1 : ¬ c = b := fun hh => hb (by simp [hh])
    have h2 : b ∉ cs := fun hh => hb (by simp [hh])
    simp [mapGet_cons, h1, ih h2]

theorem bucketTotal_eq_zero (idx : ClusterIndex) (b : Str)
    (h : ∀ e ∈ idx, ¬ e.2.bucket = b) : bucketTotal idx b = 0 := by
  unfold bucketTotal
  rw [List.sum_eq_zero]
  intro x hx
  obtain ⟨e, he, hex⟩ := List.mem_map.mp hx
  simp [h e he] at hex
  omega

/-- The initial usage map built from the configured names. -/
theorem usage_init_eq (cfgs : List Str) :
    ∀ m : UsageMap, cfgs.Nodup → (∀ c ∈ cfgs, c ∉ m.map Prod.fst) →
      cfgs.foldl (fun m n => mapSet m n 0) m = m ++ cfgs.map (fun c => (c, 0)) := by
  induction cfgs with
  | nil => intro m _ _; simp
  | cons c cs ih =>
    intro m hnd hdis
    have hc : c ∉ m.map Prod.fst := hdis c (by simp)
    have hstep : mapSet m c 0 = m ++ [(c, 0)] := mapSet_of_not_mem m c 0 hc
    have hnd' : cs.Nodup := (List.nodup_cons.mp hnd).2
    have hdis' : ∀ c' ∈ cs, c' ∉ (m ++ [(c, 0)]).map Prod.fst := by
      intro c' hc' hmem
      simp only [List.map_append, List.mem_append] at hmem
      rcases hmem with h | h
      · exact hdis c' (by simp [hc']) h
      · simp only [List.map_cons, List.map_nil, List.mem_singleton] at h
        exact (List.nodup_cons.mp hnd).1 (h ▸ hc')
    simp only [List.foldl_cons, hstep]
    rw [ih (m ++ [(c, 0)]) hnd' hdis']
    simp

/-- Folding the index entries over a usage map whose key set covers every
entry's bucket leaves the keys unchanged and adds each bucket's total. -/
theorem usage_fold_eq (idx : ClusterIndex) :
    ∀ m : UsageMap, (∀ e ∈ idx, e.2.bucket ∈ m.map Prod.fst) →
      (let r := idx.foldl (fun m e => mapSet m e.2.bucket (mapGet m e.2.bucket + e.2.size)) m
       r.map Prod.fst = m.map Prod.fst ∧ ∀ b, mapGet r b = mapGet m b + bucketTotal idx b) := by
  induction idx with
  | nil => intro m _; simp [bucketTotal]
  | cons e t ih =>
    intro m hcov
    have he : e.2.bucket ∈ m.map Prod.fst := hcov e (by simp)
    have hkeys : (mapSet m e.2.bucket (mapGet m e.2.bucket + e.2.size)).map Prod.fst
        = m.map Prod.fst := keys_mapSet_of_mem _ _ _ he
    have hcov' : ∀ x ∈ t, x.2.bucket ∈
        (mapSet m e.2.bucket (mapGet m e.2.bucket + e.2.size)).map Prod.fst := by
      intro x hx; rw [hkeys]; exact hcov x (by simp [hx])
    obtain ⟨hk, hg⟩ := ih _ hcov'
    refine ⟨by simpa [hkeys] using hk, ?_⟩
    intro b
    rw [List.foldl_cons] at *
    rw [hg b, mapGet_mapSet]
    by_cases hb : b = e.2.bucket
    · subst hb
      simp [bucketTotal]
      omega
    · have hb' : ¬ e.2.bucket = b := fun hh => hb hh.symm
      simp only [if_neg hb, bucketTotal, List.map_cons, List.sum_cons, if_neg hb']
      omega

theorem mapGet_eq_zero_of_not_mem (t : UsageMap) (b : Str)
    (h : b ∉ t.map Prod.fst) : mapGet t b = 0 := by
  induction t with
  | nil => simp [mapGet_nil]
  | cons e r ih =>
    have h1 : ¬ e.1 = b := by
      intro hh; exact h (by simp [hh])
    have h2 : b ∉ r.map Prod.fst := fun hh => h (by simp [hh])
    simp [mapGet_cons, h1, ih h2]

/-- Rebuilding an association map from its keys and values. -/
theorem usage_eq_of_keys_get (m : UsageMap) :
    ∀ m' : UsageMap, m.map Prod.fst = m'.map Prod.fst →
      (m.map Prod.fst).Nodup → (∀ b, mapGet m b = mapGet m' b) → m = m' := by
  induction m with
  | nil => intro m' hk _ _; cases m' <;> simp_all
  | cons e t ih =>
    intro m' hk hnd hg
    cases m' with
    | nil => simp at hk
    | cons e' t' =>
      simp only [List.map_cons, List.cons.injEq] at hk
      obtain ⟨hk1, hk2⟩ := hk
      have hv : e.2 = e'.2 := by
        have := hg e.1
        simpa [mapGet_cons, hk1] using this
      have hnd' : (t.map Prod.fst).Nodup := (List.nodup_cons.mp (by simpa using hnd)).2
      have he1t : e.1 ∉ t.map Prod.fst := (List.nodup_cons.mp (by simpa using hnd)).1
      have he1t' : e.1 ∉ t'.map Prod.fst := by rw [← hk2]; exact he1t
      have hg' : ∀ b, mapGet t b = mapGet t' b := by
        intro b
        by_cases hb : b = e.1
        · subst hb
          rw [mapGet_eq_zero_of_not_mem t _ he1t, mapGet_eq_zero_of_not_mem t' _ he1t']
        · have := hg b
          have hbe : ¬ e.1 = b := fun hh => hb hh.symm
          have hbe' : ¬ e'.1 = b := by rw [← hk1]; exact hbe
          simpa [mapGet_cons, hbe, hbe'] using this
      have ht : t = t' := ih t' hk2 hnd' hg'
      have he : e = e' := Prod.ext hk1 hv
      rw [ht, he]

/-- Under unique configured names and an index whose entries all reference
configured backends, the `bucketUsage` map is exactly the configured names,
in registration order, each paired with its summed size. -/
theorem computeUsage_eq (cfgs : List Str) (idx : ClusterIndex)
    (hnd : cfgs.Nodup) (hwf : ∀ e ∈ idx, e.2.bucket ∈ cfgs) :
    computeUsage cfgs idx = cfgs.map (fun c => (c, bucketTotal idx c)) := by
  have hinit : cfgs.foldl (fun m n => mapSet m n 0) [] = cfgs.map (fun c => (c, 0)) := by
    simpa using usage_init_eq cfgs [] hnd (by simp)
  have hkeys0 : (cfgs.map (fun c => ((c, 0) : Str × Nat))).map Prod.fst = cfgs := by
    simp [List.map_map, Function.comp_def]
  have hcov : ∀ e ∈ idx,
      e.2.bucket ∈ (cfgs.map (fun c => ((c, 0) : Str × Nat))).map Prod.fst := by
    intro e he; rw [hkeys0]; exact hwf e he
  obtain ⟨hk, hg⟩ := usage_fold_eq idx (cfgs.map (fun c => (c, 0))) hcov
  have hCU : computeUsage cfgs idx
      = idx.foldl (fun m e => mapSet m e.2.bucket (mapGet m e.2.bucket + e.2.size))
          (cfgs.map (fun c => (c, 0))) := by
    rw [computeUsage, hinit]
  refine usage_eq_of_keys_get _ _ ?_ ?_ ?_
  · rw [hCU, hk, hkeys0]
    simp [List.map_map, Function.comp_def]
  · rw [hCU, hk, hkeys0]; exact hnd
  · intro b
    rw [hCU, hg b]
    by_cases hb : b ∈ cfgs
    · rw [mapGet_map_apply (fun _ => 0) cfgs b hb,
        mapGet_map_apply (fun c => bucketTotal idx c) cfgs b hb]
      omega
    · rw [mapGet_map_not_mem (fun _ => 0) cfgs b hb,
        mapGet_map_not_mem (fun c => bucketTotal idx c) cfgs b hb,
        bucketTotal_eq_zero idx b]
      intro e he heb
      exact hb (heb ▸ hwf e he)

/-! ### Characterising `selectBucketForUpload` -/

theorem usageLe_trans : ∀ a b c : Str × Nat,
    usageLe a b = true → usageLe b c = true → usageLe a c = true := by
  intro a b c hab hbc
  simp only [usageLe, decide_eq_true_eq] at *
  omega

theorem usageLe_total : ∀ a b : Str × Nat, (usageLe a b || usageLe b a) = true := by
  intro a b
  simp only [usageLe, Bool.or_eq_true, decide_eq_true_eq]
  omega

/-- On a usage-sorted list, the capacity probe can only succeed at the head:
larger usages fail whenever the smallest does. -/
theorem find?_sorted_eq_head (S : UsageMap) (s maxB : Nat)
    (hs : List.Pairwise (fun a b => usageLe a b = true) S) :
    S.find? (fun u => u.2 + s < maxB)
      = (S.head?.filter (fun u => u.2 + s < maxB)) := by
  cases S with
  | nil => rfl
  | cons h t =>
    by_cases hp : h.2 + s < maxB
    · simp [List.find?, hp, Option.filter]
    · obtain ⟨hall, _⟩ := List.pairwise_cons.mp hs
      have hnone : t.find? (fun u => decide (u.2 + s < maxB)) = none := by
        rw [List.find?_eq_none]
        intro x hx
        have hle : h.2 ≤ x.2 := by
          have := hall x hx
          simpa [usageLe] using this
        simp only [decide_eq_true_eq]
        omega
      simp [List.find?, hp, hnone, Option.filter]

/-- The head of the stable usage-sort of `cfgs.map (c, total c)` is the
earliest configured backend attaining the minimum usage. -/
theorem mergeSort_head_min (cfgs : List Str) (idx : ClusterIndex)
    (hnd : cfgs.Nodup) (u : Str × Nat) (t : UsageMap)
    (hS : (cfgs.map (fun c => (c, bucketTotal idx c))).mergeSort usageLe = u :: t) :
    u.1 ∈ cfgs ∧ u.2 = bucketTotal idx u.1 ∧
    (∀ c' ∈ cfgs, u.2 ≤ bucketTotal idx c') ∧
    ∃ pre post, cfgs = pre ++ u.1 :: post ∧
      ∀ c' ∈ pre, bucketTotal idx c' ≠ u.2 := by
  set f : Str → Str × Nat := fun c => (c, bucketTotal idx c) with hf
  set U : UsageMap := cfgs.map f with hU
  have hperm : (U.mergeSort usageLe).Perm U := List.mergeSort_perm U usageLe
  have hUnd : U.Nodup := by
    refine List.Nodup.map ?_ hnd
    intro a b hab
    simpa [hf] using congrArg Prod.fst hab
  have hSnd : (U.mergeSort usageLe).Nodup := (hperm.symm).nodup hUnd
  have huU : u ∈ U := by
    have : u ∈ U.mergeSort usageLe := by rw [hS]; simp
    exact hperm.mem_iff.mp this
  obtain ⟨c₀, hc₀, hfc₀⟩ := List.mem_map.mp huU
  have hu1 : u.1 = c₀ := by rw [← hfc₀]
  have hu2 : u.2 = bucketTotal idx u.1 := by rw [hu1, ← hfc₀]
  have hsorted := List.sorted_mergeSort usageLe_trans usageLe_total U
  rw [hS] at hsorted
  obtain ⟨hall, _⟩ := List.pairwise_cons.mp hsorted
  have hmin : ∀ c' ∈ cfgs, u.2 ≤ bucketTotal idx c' := by
    intro c' hc'
    have hmem : f c' ∈ U := List.mem_map_of_mem f hc'
    have : f c' ∈ u :: t := by rw [← hS]; exact hperm.mem_iff.mpr hmem
    rcases List.mem_cons.mp this with h | h
    · rw [show bucketTotal idx c' = (f c').2 from rfl, ← h]
    · have := hall _ h
      simpa [usageLe, hf] using this
  refine ⟨hu1 ▸ hc₀, hu2, hmin, ?_⟩
  -- first-attaining-the-minimum, by stability of the sort
  have hfmsome : (U.find? (fun e => e.2 = u.2)).isSome := by
    rw [List.find?_isSome]
    exact ⟨u, huU, by simp⟩
  obtain ⟨fm, hfm⟩ := Option.isSome_iff_exists.mp hfmsome
  obtain ⟨hfmv, as, bs, hUsplit, hasne⟩ := List.find?_eq_some.mp hfm
  have hfmu : fm = u := by
    by_contra hne
    have huas : u ∉ as := by
      intro hmem
      have := hasne u hmem
      simp at this
    have hubs : u ∈ bs := by
      have : u ∈ as ++ fm :: bs := hUsplit ▸ huU
      rcases List.mem_append.mp this with h | h
      · exact absurd h huas
      · rcases List.mem_cons.mp h with h | h
        · exact absurd h.symm hne
        · exact h
    have hsub : List.Sublist [fm, u] U := by
      have h1 : List.Sublist [fm, u] (fm :: bs) :=
        List.Sublist.cons₂ fm (List.singleton_sublist.mpr hubs)
      have h2 : List.Sublist (fm :: bs) U := by
        rw [hUsplit]
        exact List.sublist_append_right as (fm :: bs)
      exact h1.trans h2
    have hpair : List.Pairwise (fun a b => usageLe a b = true) [fm, u] := by
      have hv : fm.2 = u.2 := by simpa using hfmv
      refine List.pairwise_cons.mpr ⟨?_, by simp⟩
      intro x hx
      rcases List.mem_singleton.mp hx with h
      subst h
      simp [usageLe, hv]
    have hsubS : List.Sublist [fm, u] (U.mergeSort usageLe) :=
      List.sublist_mergeSort usageLe_trans usageLe_total hpair hsub
    rw [hS] at hsubS
    rcases List.sublist_cons_iff.mp hsubS with h | ⟨r, hr, hrsub⟩
    · -- then u would sit inside t as well, giving a duplicate in u :: t
      have hut : u ∈ t := h.subset (by simp)
      have : u ∉ t := (List.nodup_cons.mp (hS ▸ hSnd)).1
      exact this hut
    · have : fm = u := by
        have := congrArg (fun l => l.head?) hr
        simpa using this
      exact hne this
  rw [hfmu] at hUsplit
  rw [hU, hf] at hUsplit
  obtain ⟨pre, rest, hcfgs, hmappre, hmaprest⟩ := List.map_eq_append_iff.mp hUsplit
  obtain ⟨c₁, post, hrest, hfc₁, hmappost⟩ := List.map_eq_cons_iff.mp hmaprest
  have hc₁ : c₁ = u.1 := by
    have := congrArg Prod.fst hfc₁
    simpa using this
  refine ⟨pre, post, by rw [hcfgs, hrest, hc₁], ?_⟩
  intro c' hc'
  have : (fun c => (c, bucketTotal idx c)) c' ∈ as := by
    rw [← hmappre]
    exact List.mem_map_of_mem _ hc'
  have := hasne _ this
  simpa using this

theorem find?_usage_map (cfgs : List Str) (g : Str → Nat) (p : Nat → Bool) :
    ((cfgs.map (fun c => (c, g c))).find? (fun u => p u.2)).map (·.1)
      = cfgs.find? (fun c => p (g c)) := by
  induction cfgs with
  | nil => rfl
  | cons c cs ih =>
    by_cases h : p (g c)
    · rw [List.map_cons, List.find?_cons_of_pos _ (by simpa using h),
        List.find?_cons_of_pos _ (by simpa using h)]
      rfl
    · rw [List.map_cons, List.find?_cons_of_neg _ (by simpa using h),
        List.find?_cons_of_neg _ (by simpa using h)]
      exact ih

/-- C1: over any loaded index whose entries all reference configured
backends, `selectBucketForUpload` computes each configured backend's usage
as the grouped sum of index entry sizes (0 with no entries), keeps exactly
the backends with `usage + sizeBytes < ceiling` as candidates, picks the
first candidate in registration order under `fill-first`, picks the
minimal-usage candidate (ties to the earliest registered) under
`balanced`, and returns `none` exactly when no candidate exists. -/
theorem claim1_selectBucketForUpload
    (cfgs : List Str) (idx : ClusterIndex) (maxB : Nat) (strategy : Str) (s : Nat)
    (hnd : cfgs.Nodup) (hwf : ∀ e ∈ idx, e.2.bucket ∈ cfgs) :
    (computeUsage cfgs idx = cfgs.map (fun c => (c, bucketTotal idx c))) ∧
    (¬ strategy = "balanced".data →
      selectBucketForUpload cfgs idx maxB strategy s
        = cfgs.find? (fun c => bucketTotal idx c + s < maxB)) ∧
    (∀ c, selectBucketForUpload cfgs idx maxB "balanced".data s = some c →
      c ∈ cfgs ∧ bucketTotal idx c + s < maxB ∧
      (∀ c' ∈ cfgs, bucketTotal idx c ≤ bucketTotal idx c') ∧
      ∃ pre post, cfgs = pre ++ c :: post ∧
        ∀ c' ∈ pre, bucketTotal idx c' ≠ bucketTotal idx c) ∧
    ((∀ c ∈ cfgs, ¬ bucketTotal idx c + s < maxB) →
      selectBucketForUpload cfgs idx maxB strategy s = none) ∧
    ((∃ c ∈ cfgs, bucketTotal idx c + s < maxB) →
      (selectBucketForUpload cfgs idx maxB strategy s).isSome) := by
  have hU := computeUsage_eq cfgs idx hnd hwf
  set f : Str → Str × Nat := fun c => (c, bucketTotal idx c) with hf
  have hselB : selectBucketForUpload cfgs idx maxB "balanced".data s
      = (((cfgs.map f).mergeSort usageLe).find?
          (fun u => decide (u.2 + s < maxB))).map (·.1) := by
    unfold selectBucketForUpload
    rw [hU]
    simp
  have hselF : ¬ strategy = "balanced".data →
      selectBucketForUpload cfgs idx maxB strategy s
        = ((cfgs.map f).find? (fun u => decide (u.2 + s < maxB))).map (·.1) := by
    intro h
    unfold selectBucketForUpload
    rw [hU]
    simp [if_neg h]
  refine ⟨hU, ?_, ?_, ?_, ?_⟩
  · intro hstrat
    rw [hselF hstrat, hf]
    exact find?_usage_map cfgs (fun c => bucketTotal idx c)
      (fun v => decide (v + s < maxB))
  · intro c hc
    rw [hselB] at hc
    rcases hSc : (cfgs.map f).mergeSort usageLe with _ | ⟨u, t⟩
    · rw [hSc] at hc
      simp [List.find?] at hc
    · rw [hSc] at hc
      have hsorted := List.sorted_mergeSort usageLe_trans usageLe_total (cfgs.map f)
      rw [hSc] at hsorted
      obtain ⟨hmem, hv, hmin, pre, post, hsplit, hties⟩ :=
        mergeSort_head_min cfgs idx hnd u t (by rw [← hf]; exact hSc)
      have hcu : u.1 = c ∧ u.2 + s < maxB := by
        by_cases hp : u.2 + s < maxB
        · simp [List.find?, hp] at hc
          exact ⟨hc, hp⟩
        · exfalso
          obtain ⟨hall, _⟩ := List.pairwise_cons.mp hsorted
          have : (u :: t).find? (fun x => decide (x.2 + s < maxB)) = none := by
            rw [List.find?_eq_none]
            intro x hx
            rcases List.mem_cons.mp hx with h | h
            · subst h; simpa using hp
            · have hle : u.2 ≤ x.2 := by simpa [usageLe] using hall x h
              simp only [decide_eq_true_eq]
              omega
          rw [this] at hc
          simp at hc
      obtain ⟨hc1, hc2⟩ := hcu
      subst hc1
      exact ⟨hmem, hv ▸ hc2, fun c' h => hv ▸ hmin c' h,
        pre, post, hsplit, fun c' h => fun heq => hties c' h (heq.trans hv.symm)⟩
  · intro hnone
    have hfail : ∀ x ∈ cfgs.map f, ¬ (decide (x.2 + s < maxB) = true) := by
      intro x hx
      obtain ⟨c, hcmem, hfc⟩ := List.mem_map.mp hx
      rw [← hfc]
      simpa [hf] using hnone c hcmem
    by_cases hstrat : strategy = "balanced".data
    · rw [hstrat, hselB, List.find?_eq_none.mpr]
      · rfl
      · intro x hx
        exact hfail x ((List.mergeSort_perm (cfgs.map f) usageLe).mem_iff.mp hx)
    · rw [hselF hstrat, List.find?_eq_none.mpr hfail]
      rfl
  · rintro ⟨c, hcmem, hcand⟩
    have hx : f c ∈ cfgs.map f := List.mem_map_of_mem f hcmem
    by_cases hstrat : strategy = "balanced".data
    · rw [hstrat, hselB]
      have hsome : (((cfgs.map f).mergeSort usageLe).find?
          (fun u => decide (u.2 + s < maxB))).isSome := by
        rw [List.find?_isSome]
        refine ⟨f c, (List.mergeSort_perm (cfgs.map f) usageLe).mem_iff.mpr hx, ?_⟩
        simpa [hf] using hcand
      rcases hfind : ((cfgs.map f).mergeSort usageLe).find?
          (fun u => decide (u.2 + s < maxB)) with _ | u
      · rw [hfind] at hsome; simp at hsome
      · rw [hfind]; rfl
    · rw [hselF hstrat]
      have hsome : ((cfgs.map f).find? (fun u => decide (u.2 + s < maxB))).isSome := by
        rw [List.find?_isSome]
        refine ⟨f c, hx, ?_⟩
        simpa [hf] using hcand
      rcases hfind : (cfgs.map f).find? (fun u => decide (u.2 + s < maxB)) with _ | u
      · rw [hfind] at hsome; simp at hsome
      · rw [hfind]; rfl

/-- A two-backend configuration used to instantiate placement claims. -/
def cfgsW : List Str := ["A".data, "B".data]

/-- A small index placing 60 bytes on backend `A`. -/
def idxW : ClusterIndex :=
  [("x".data, ⟨"A".data, 60, 5, "e1".data, none⟩)]

/-- Witness for C1: the hypotheses hold at a concrete two-backend setup,
and the theorem applies there. -/
theorem claim1_selectBucketForUpload_witness :
    cfgsW.Nodup ∧ (∀ e ∈ idxW, e.2.bucket ∈ cfgsW) ∧
    selectBucketForUpload cfgsW idxW 100 "fill-first".data 50
      = cfgsW.find? (fun c => bucketTotal idxW c + 50 < 100) ∧
    selectBucketForUpload cfgsW idxW 100 "fill-first".data 200 = none := by
  refine ⟨by decide, by decide, ?_, ?_⟩
  · exact (claim1_selectBucketForUpload cfgsW idxW 100 "fill-first".data 50
      (by decide) (by decide)).2.1 (by decide)
  · exact (claim1_selectBucketForUpload cfgsW idxW 100 "fill-first".data 200
      (by decide) (by decide)).2.2.2.1 (by decide)

/-! ### C10: which names can the selector return? -/

theorem mem_mapSet (m : UsageMap) (k : Str) (v : Nat) (x : Str × Nat)
    (h : x ∈ mapSet m k v) : x ∈ m ∨ x.1 = k := by
  induction m with
  | nil =>
    simp [mapSet] at h
    right; rw [h]
  | cons e t ih =>
    by_cases hek : e.1 = k
    · rw [mapSet_cons_eq e t k v hek] at h
      rcases List.mem_cons.mp h with h | h
      · right; rw [h]
      · left; exact List.mem_cons_of_mem e h
    · rw [mapSet_cons_ne e t k v hek] at h
      rcases List.mem_cons.mp h with h | h
      · left; exact h ▸ List.mem_cons_self e t
      · rcases ih h with h | h
        · left; exact List.mem_cons_of_mem e h
        · right; exact h

theorem mem_usage_init (cfgs : List Str) :
    ∀ (m : UsageMap) (x : Str × Nat),
      x ∈ cfgs.foldl (fun m n => mapSet m n 0) m → x ∈ m ∨ x.1 ∈ cfgs := by
  induction cfgs with
  | nil => intro m x h; left; exact h
  | cons c cs ih =>
    intro m x h
    rcases ih (mapSet m c 0) x h with h | h
    · rcases mem_mapSet m c 0 x h with h | h
      · left; exact h
      · right; simp [h]
    · right; simp [h]

theorem mem_usage_fold (idx : ClusterIndex) :
    ∀ (m : UsageMap) (x : Str × Nat),
      x ∈ idx.foldl (fun m e => mapSet m e.2.bucket (mapGet m e.2.bucket + e.2.size)) m →
      x ∈ m ∨ x.1 ∈ idx.map (fun e => e.2.bucket) := by
  induction idx with
  | nil => intro m x h; left; exact h
  | cons e t ih =>
    intro m x h
    rw [List.foldl_cons] at h
    rcases ih (mapSet m e.2.bucket (mapGet m e.2.bucket + e.2.size)) x h with h | h
    · rcases mem_mapSet m e.2.bucket (mapGet m e.2.bucket + e.2.size) x h with h | h
      · left; exact h
      · right
        rw [List.map_cons, h]
        exact List.mem_cons_self _ _
    · right
      rw [List.map_cons]
      exact List.mem_cons_of_mem _ h

/-- C10 (amended): any name `selectBucketForUpload` returns is either a
configured backend name or a `backendName` occurring in some index entry
(a stale entry can make the selector return an unconfigured name). -/
theorem claim10_select_returns_known_name
    (cfgs : List Str) (idx : ClusterIndex) (maxB : Nat) (strategy : Str)
    (s : Nat) (c : Str)
    (h : selectBucketForUpload cfgs idx maxB strategy s = some c) :
    c ∈ cfgs ∨ c ∈ idx.map (fun e => e.2.bucket) := by
  unfold selectBucketForUpload at h
  set p : Str × Nat → Bool := fun u => decide (u.2 + s < maxB) with hp
  have hmemU : ∃ u : Str × Nat, u ∈ computeUsage cfgs idx ∧ u.1 = c := by
    by_cases hstrat : strategy = "balanced".data
    · simp only [if_pos hstrat] at h
      rcases hfind : ((computeUsage cfgs idx).mergeSort usageLe).find? p with _ | u
      · rw [hp] at hfind; rw [hfind] at h; simp at h
      · have hu : u ∈ (computeUsage cfgs idx).mergeSort usageLe :=
          List.mem_of_find?_eq_some hfind
        refine ⟨u, (List.mergeSort_perm _ usageLe).mem_iff.mp hu, ?_⟩
        rw [hp] at hfind; rw [hfind] at h
        simpa using h
    · simp only [if_neg hstrat] at h
      rcases hfind : (computeUsage cfgs idx).find? p with _ | u
      · rw [hp] at hfind; rw [hfind] at h; simp at h
      · refine ⟨u, List.mem_of_find?_eq_some hfind, ?_⟩
        rw [hp] at hfind; rw [hfind] at h
        simpa using h
  obtain ⟨u, humem, hu1⟩ := hmemU
  rcases mem_usage_fold idx _ u humem with hm | hm
  · rcases mem_usage_init cfgs [] u hm with hm' | hm'
    · simp at hm'
    · left; exact hu1 ▸ hm'
  · right; exact hu1 ▸ hm

/-- One configured backend `A` over capacity, plus a stale index entry for
an unconfigured backend `Z`. -/
def cfgsX : List Str := ["A".data]

/-- Index with a stale entry referencing the removed backend `Z`. -/
def idxX : ClusterIndex :=
  [("k1".data, ⟨"A".data, 100, 0, "e".data, none⟩),
   ("k2".data, ⟨"Z".data, 0, 0, "e".data, none⟩)]

/-- Counterexample to C10 as stated: the selector returns `Z`, a name that
occurs only in a stale index entry and not in the configured registry. -/
theorem claim10_counterexample :
    selectBucketForUpload cfgsX idxX 50 "fill-first".data 10 = some "Z".data ∧
    ¬ "Z".data ∈ cfgsX := by
  constructor
  · decide
  · decide

theorem claim10_select_returns_known_name_witness :
    selectBucketForUpload cfgsX idxX 50 "fill-first".data 10 = some "Z".data ∧
    ("Z".data ∈ cfgsX ∨ "Z".data ∈ idxX.map (fun e => e.2.bucket)) :=
  ⟨by decide,
   claim10_select_returns_known_name cfgsX idxX 50 ("fill-first".data) 10
     ("Z".data) (by decide)⟩

/-! ### C3: `aggregateList` — hierarchical listing from the flat index -/

/-- `hay.includes(needle)`: some contiguous occurrence of `needle`. -/
def containsSub (needle : Str) : Str → Bool
  | [] => needle.isPrefixOf []
  | c :: t => needle.isPrefixOf (c :: t) || containsSub needle t

/-- `hay.indexOf(needle)`: position of the first occurrence (meaningful
when `containsSub` holds). -/
def indexOfSub (needle : Str) : Str → Nat
  | [] => 0
  | c :: t => if needle.isPrefixOf (c :: t) then 0 else indexOfSub needle t + 1

/-- One `Contents` row pushed by `aggregateList`. -/
structure ContentRow where
  key : Str
  lastModified : Nat
  etag : Str
  size : Nat
deriving DecidableEq, Repr

/-- `Set.add` on the common-prefix set (JS `Set` keeps insertion order and
ignores duplicates). -/
def addToSet (s : List Str) (x : Str) : List Str :=
  if x ∈ s then s else s ++ [x]

/-- Lexicographic code-unit comparison backing the default JS `sort()` on
the common-prefix strings. -/
def strLtB : Str → Str → Bool
  | [], [] => false
  | [], _ :: _ => true
  | _ :: _, [] => false
  | a :: as, b :: bs =>
    if a.toNat < b.toNat then true
    else if b.toNat < a.toNat then false
    else strLtB as bs

/-- `a` may precede `b` in the lexicographically sorted prefix list. -/
def strLeB (a b : Str) : Bool := ! strLtB b a

/-- The content comparator `(a, b) => b.LastModified - a.LastModified`
(stable descending sort on modification time). -/
def rowLe (a b : ContentRow) : Bool := b.lastModified ≤ a.lastModified

/-- One iteration of the `for (const [key, meta] of Object.entries(index))`
loop in `aggregateList`. -/
def aggStep (pfx : Str) (delim : Option Str)
    (acc : List ContentRow × List Str) (e : Str × FileMetadata) :
    List ContentRow × List Str :=
  if pfx.isPrefixOf e.1 then
    let relativePath := e.1.drop pfx.length
    match delim with
    | some d =>
      if ¬ d = [] ∧ containsSub d relativePath then
        (acc.1, addToSet acc.2
          (pfx ++ relativePath.take (indexOfSub d relativePath + d.length)))
      else
        (acc.1 ++ [⟨e.1, e.2.lastModified, e.2.etag, e.2.size⟩], acc.2)
    | none => (acc.1 ++ [⟨e.1, e.2.lastModified, e.2.etag, e.2.size⟩], acc.2)
  else acc

/-- `ClusterManager.aggregateList`: fold the index, then sort content rows
by modification time descending and the deduplicated common prefixes
lexicographically. -/
def aggregateList (idx : ClusterIndex) (pfx : Str) (delim : Option Str) :
    List ContentRow × List Str :=
  let folded := idx.foldl (aggStep pfx delim) ([], [])
  (folded.1.mergeSort rowLe, folded.2.mergeSort strLeB)

theorem containsSub_iff (d : Str) (s : Str) :
    containsSub d s = true ↔ ∃ a b, s = a ++ d ++ b := by
  induction s with
  | nil =>
    simp only [containsSub]
    constructor
    · intro h
      have : d <+: [] := List.isPrefixOf_iff_prefix.mp h
      obtain ⟨r, hr⟩ := this
      exact ⟨[], r, by simp [← hr]⟩
    · rintro ⟨a, b, hab⟩
      have hd : d = [] := by
        have h1 := List.append_eq_nil.mp hab.symm
        exact (List.append_eq_nil.mp h1.1).2
      rw [hd]
      simp [List.isPrefixOf]
  | cons c t ih =>
    simp only [containsSub, Bool.or_eq_true]
    constructor
    · rintro (h | h)
      · obtain ⟨r, hr⟩ := List.isPrefixOf_iff_prefix.mp h
        exact ⟨[], r, by simp [← hr]⟩
      · obtain ⟨a, b, hab⟩ := ih.mp h
        exact ⟨c :: a, b, by simp [hab]⟩
    · rintro ⟨a, b, hab⟩
      cases a with
      | nil =>
        left
        rw [List.isPrefixOf_iff_prefix]
        exact ⟨b, by simp [hab]⟩
      | cons a0 as =>
        right
        refine ih.mpr ⟨as, b, ?_⟩
        simpa using congrArg List.tail hab

theorem take_indexOfSub (d : Str) : ∀ s : Str, containsSub d s = true →
    s.take (indexOfSub d s + d.length) = s.take (indexOfSub d s) ++ d ∧
    (s.take (indexOfSub d s) ++ d) <+: s ∧
    ∀ x y, s = x ++ d ++ y → indexOfSub d s ≤ x.length := by
  intro s
  induction s with
  | nil =>
    intro h
    simp only [containsSub] at h
    obtain ⟨r, hr⟩ := List.isPrefixOf_iff_prefix.mp h
    have hd : d = [] := by
      cases List.append_eq_nil.mp hr with
      | intro h1 _ => exact h1
    subst hd
    simp [indexOfSub]
  | cons c t ih =>
    intro h
    by_cases hp : d.isPrefixOf (c :: t)
    · have hpre : d <+: c :: t := List.isPrefixOf_iff_prefix.mp hp
      have hidx : indexOfSub d (c :: t) = 0 := by simp [indexOfSub, hp]
      refine ⟨?_, ?_, ?_⟩
      · rw [hidx]
        simp only [Nat.zero_add, List.take_zero, List.nil_append]
        obtain ⟨r, hr⟩ := hpre
        rw [← hr]
        exact List.take_left d r
      · rw [hidx]
        simpa using hpre
      · intro x y _
        rw [hidx]
        exact Nat.zero_le _
    · have hct : containsSub d t = true := by
        simp only [containsSub, Bool.or_eq_true] at h
        rcases h with h | h
        · exact absurd h hp
        · exact h
      have hidx : indexOfSub d (c :: t) = indexOfSub d t + 1 := by
        simp [indexOfSub, hp]
      obtain ⟨h1, h2, h3⟩ := ih hct
      refine ⟨?_, ?_, ?_⟩
      · rw [hidx]
        have : indexOfSub d t + 1 + d.length = (indexOfSub d t + d.length) + 1 := by omega
        rw [this]
        simp only [List.take_succ_cons, h1]
        rfl
      · rw [hidx]
        simp only [List.take_succ_cons]
        obtain ⟨r, hr⟩ := h2
        exact ⟨r, by rw [List.cons_append, List.cons_append, hr]⟩
      · intro x y hxy
        rw [hidx]
        cases x with
        | nil =>
          exfalso
          refine hp (List.isPrefixOf_iff_prefix.mpr ⟨y, ?_⟩)
          simpa using hxy.symm
        | cons x0 xs =>
          have hxt : t = xs ++ d ++ y := by
            rw [List.cons_append] at hxy
            exact (List.cons.inj hxy).2
          have := h3 xs y hxt
          simp only [List.length_cons]
          omega

theorem mem_addToSet (s : List Str) (x q : Str) (h : q ∈ addToSet s x) :
    q ∈ s ∨ q = x := by
  unfold addToSet at h
  split at h
  · left; exact h
  · rcases List.mem_append.mp h with h | h
    · left; exact h
    · right; simpa using h

theorem addToSet_nodup (s : List Str) (x : Str) (h : s.Nodup) :
    (addToSet s x).Nodup := by
  unfold addToSet
  split
  · exact h
  · rename_i hx
    rw [List.nodup_append]
    exact ⟨h, List.nodup_singleton x, by
      intro a ha hax
      rw [List.mem_singleton] at hax
      exact hx (hax ▸ ha)⟩

/-- A string the fold may have added to the common-prefix set. -/
def GoodPrefix (idx : ClusterIndex) (pfx d q : Str) : Prop :=
  ∃ k meta, (k, meta) ∈ idx ∧ pfx.isPrefixOf k = true ∧
    containsSub d (k.drop pfx.length) = true ∧
    q = pfx ++ (k.drop pfx.length).take
      (indexOfSub d (k.drop pfx.length) + d.length)

/-- A content row the fold may have pushed. -/
def GoodRow (idx : ClusterIndex) (pfx d : Str) (row : ContentRow) : Prop :=
  ∃ k meta, (k, meta) ∈ idx ∧ pfx.isPrefixOf k = true ∧
    containsSub d (k.drop pfx.length) = false ∧
    row = ⟨k, meta.lastModified, meta.etag, meta.size⟩

theorem aggStep_some (pfx d : Str) (acc : List ContentRow × List Str)
    (e : Str × FileMetadata) :
    aggStep pfx (some d) acc e
      = if pfx.isPrefixOf e.1 then
          (if ¬ d = [] ∧ containsSub d (e.1.drop pfx.length) = true then
            (acc.1, addToSet acc.2 (pfx ++ (e.1.drop pfx.length).take
              (indexOfSub d (e.1.drop pfx.length) + d.length)))
          else (acc.1 ++ [⟨e.1, e.2.lastModified, e.2.etag, e.2.size⟩], acc.2))
        else acc := rfl

theorem aggStep_preserves (idx : ClusterIndex) (pfx d : Str) (hd : ¬ d = [])
    (acc : List ContentRow × List Str) (e : Str × FileMetadata) (he : e ∈ idx)
    (h1 : ∀ q ∈ acc.2, GoodPrefix idx pfx d q) (h2 : acc.2.Nodup)
    (h3 : ∀ row ∈ acc.1, GoodRow idx pfx d row) :
    (∀ q ∈ (aggStep pfx (some d) acc e).2, GoodPrefix idx pfx d q) ∧
    (aggStep pfx (some d) acc e).2.Nodup ∧
    (∀ row ∈ (aggStep pfx (some d) acc e).1, GoodRow idx pfx d row) := by
  rw [aggStep_some]
  by_cases hpre : pfx.isPrefixOf e.1
  · rw [if_pos hpre]
    by_cases hcond : ¬ d = [] ∧ containsSub d (e.1.drop pfx.length) = true
    · rw [if_pos hcond]
      refine ⟨?_, addToSet_nodup _ _ h2, h3⟩
      intro q hq
      rcases mem_addToSet _ _ _ hq with hq | hq
      · exact h1 q hq
      · exact ⟨e.1, e.2, by simpa using he, hpre, hcond.2, hq⟩
    · rw [if_neg hcond]
      refine ⟨h1, h2, ?_⟩
      intro row hrow
      rcases List.mem_append.mp hrow with hrow | hrow
      · exact h3 row hrow
      · rw [List.mem_singleton] at hrow
        have hcf : containsSub d (e.1.drop pfx.length) = false := by
          rcases Bool.eq_false_or_eq_true (containsSub d (e.1.drop pfx.length)) with h | h
          · exact absurd ⟨hd, h⟩ hcond
          · exact h
        exact ⟨e.1, e.2, by simpa using he, hpre, hcf, hrow⟩
  · rw [if_neg hpre]
    exact ⟨h1, h2, h3⟩

theorem agg_fold_inv (idx : ClusterIndex) (pfx d : Str) (hd : ¬ d = []) :
    ∀ (l : List (Str × FileMetadata)) (acc : List ContentRow × List Str),
      (∀ e ∈ l, e ∈ idx) →
      (∀ q ∈ acc.2, GoodPrefix idx pfx d q) → acc.2.Nodup →
      (∀ row ∈ acc.1, GoodRow idx pfx d row) →
      ((∀ q ∈ (l.foldl (aggStep pfx (some d)) acc).2, GoodPrefix idx pfx d q) ∧
       (l.foldl (aggStep pfx (some d)) acc).2.Nodup ∧
       (∀ row ∈ (l.foldl (aggStep pfx (some d)) acc).1, GoodRow idx pfx d row)) := by
  intro l
  induction l with
  | nil => intro acc _ h1 h2 h3; exact ⟨h1, h2, h3⟩
  | cons e t ih =>
    intro acc hsub h1 h2 h3
    rw [List.foldl_cons]
    obtain ⟨g1, g2, g3⟩ := aggStep_preserves idx pfx d hd acc e (hsub e (by simp)) h1 h2 h3
    exact ih (aggStep pfx (some d) acc e)
      (fun x hx => hsub x (List.mem_cons_of_mem e hx)) g1 g2 g3

/-- C3: for prefix `P` and non-empty delimiter `D`, every returned common
prefix starts with `P`, ends with `D`, and equals `P` plus the remainder of
some matching key up through and including the first occurrence of `D`
(minimality expressed over all decompositions); no returned content row's
key contains `D` after stripping the leading `P`; only keys starting with
`P` contribute; and the returned common prefixes are deduplicated. -/
theorem claim3_aggregateList (idx : ClusterIndex) (P d : Str) (hd : ¬ d = []) :
    (∀ q ∈ (aggregateList idx P (some d)).2,
      (∃ r, q = P ++ r) ∧
      (∃ a, q = a ++ d) ∧
      (∃ k meta a b, (k, meta) ∈ idx ∧ (∃ r, k = P ++ r) ∧
        k.drop P.length = a ++ d ++ b ∧ q = P ++ a ++ d ∧
        (∀ x y, k.drop P.length = x ++ d ++ y → a.length ≤ x.length))) ∧
    (∀ row ∈ (aggregateList idx P (some d)).1,
      (∃ meta, (row.key, meta) ∈ idx ∧
        row = ⟨row.key, meta.lastModified, meta.etag, meta.size⟩) ∧
      (∃ r, row.key = P ++ r) ∧
      ¬ ∃ x y, row.key.drop P.length = x ++ d ++ y) ∧
    (aggregateList idx P (some d)).2.Nodup := by
  obtain ⟨g1, g2, g3⟩ :=
    agg_fold_inv idx P d hd idx ([], []) (fun e he => he)
      (by intro q hq; simp at hq) (by simp) (by intro row hrow; simp at hrow)
  have hpermP : ((idx.foldl (aggStep P (some d)) ([], [])).2.mergeSort strLeB).Perm
      (idx.foldl (aggStep P (some d)) ([], [])).2 :=
    List.mergeSort_perm _ strLeB
  have hpermC : ((idx.foldl (aggStep P (some d)) ([], [])).1.mergeSort rowLe).Perm
      (idx.foldl (aggStep P (some d)) ([], [])).1 :=
    List.mergeSort_perm _ rowLe
  refine ⟨?_, ?_, ?_⟩
  · intro q hq
    have hq' : q ∈ (idx.foldl (aggStep P (some d)) ([], [])).2 :=
      hpermP.mem_iff.mp hq
    obtain ⟨k, meta, hk, hpre, hcont, hqeq⟩ := g1 q hq'
    set rel := k.drop P.length with hrel
    obtain ⟨ht1, ht2, ht3⟩ := take_indexOfSub d rel hcont
    obtain ⟨b, hb⟩ := ht2
    have halen : (rel.take (indexOfSub d rel)).length ≤ indexOfSub d rel := by
      rw [List.length_take]
      omega
    refine ⟨⟨rel.take (indexOfSub d rel + d.length), hqeq⟩, ?_, ?_⟩
    · refine ⟨P ++ rel.take (indexOfSub d rel), ?_⟩
      rw [hqeq, ht1, List.append_assoc]
    · refine ⟨k, meta, rel.take (indexOfSub d rel), b, hk, ?_, ?_, ?_, ?_⟩
      · obtain ⟨r, hr⟩ := List.isPrefixOf_iff_prefix.mp hpre
        exact ⟨r, hr.symm⟩
      · exact hb.symm
      · rw [hqeq, ht1, List.append_assoc]
      · intro x y hxy
        exact le_trans halen (ht3 x y hxy)
  · intro row hrow
    have hrow' : row ∈ (idx.foldl (aggStep P (some d)) ([], [])).1 :=
      hpermC.mem_iff.mp hrow
    obtain ⟨k, meta, hk, hpre, hcont, hroweq⟩ := g3 row hrow'
    have hkey : row.key = k := by rw [hroweq]
    refine ⟨⟨meta, hkey ▸ hk, by rw [hroweq]⟩, ?_, ?_⟩
    · obtain ⟨r, hr⟩ := List.isPrefixOf_iff_prefix.mp hpre
      exact ⟨r, by rw [hkey, ← hr]⟩
    · intro hex
      rw [hkey] at hex
      have : containsSub d (k.drop P.length) = true := (containsSub_iff _ _).mpr hex
      rw [hcont] at this
      exact Bool.false_ne_true this
  · exact (hpermP.symm).nodup g2

/-- Index with a small folder structure used to instantiate listing claims. -/
def idx3 : ClusterIndex :=
  [("docs/a.txt".data, ⟨"A".data, 1, 10, "e1".data, none⟩),
   ("docs/sub/b.txt".data, ⟨"A".data, 2, 20, "e2".data, none⟩),
   ("img/c.png".data, ⟨"B".data, 3, 30, "e3".data, none⟩)]

/-- Witness for C3 at prefix `docs/` and delimiter `/`. -/
theorem claim3_aggregateList_witness :
    (¬ "/".data = ([] : Str)) ∧
    (∀ q ∈ (aggregateList idx3 "docs/".data (some "/".data)).2,
      ∃ r, q = "docs/".data ++ r) ∧
    (aggregateList idx3 "docs/".data (some "/".data)).2.Nodup := by
  have h := claim3_aggregateList idx3 "docs/".data "/".data (by decide)
  exact ⟨by decide, fun q hq => (h.1 q hq).1, h.2.2⟩

/-! ### Write operations: `putObject`, `deleteObject`, the PUT pipeline -/

/-- Events observable at the backend / KV-store boundary. -/
inductive Ev where
  | physDelete (bucket key : Str) (versionId : Option Str)
  | physWrite (bucket key : Str)
  | persist (idx : ClusterIndex)
deriving DecidableEq, Repr

/-- `etag.replace(/"/g, '')`: strip every double quote. -/
def stripQuotes (s : Str) : Str := s.filter (fun c => ¬ c = '"')

/-- `ClusterManager.locateFile`: O(1) lookup in the loaded index. -/
def locateFile (idx : ClusterIndex) (key : Str) : Option FileMetadata :=
  lookupKey idx key

/-- `ClusterManager.putObject`.  The physical PUT response is passed in as
`resOk` / `resEtag` / `resVid`; `size` is the numeric value the code parses
from the `Content-Length` header and `now` is `Date.now()`.  `error`
models the method throwing (`Bucket client not found`, `Upload failed`);
on success it records the new location and persists the whole index. -/
def putObject (cfgs : List Str) (idx : ClusterIndex) (bucketName key : Str)
    (size : Nat) (resOk : Bool) (resEtag : Str) (resVid : Option Str)
    (now : Nat) : Except Unit (ClusterIndex × List Ev) :=
  if ¬ cfgs.contains bucketName then .error ()
  else if ¬ resOk then .error ()
  else
    let idx2 := setKey idx key ⟨bucketName, size, now, stripQuotes resEtag, resVid⟩
    .ok (idx2, [Ev.physWrite bucketName key, Ev.persist idx2])

/-- `ClusterManager.deleteObject`.  `fetchRejects` models the physical
DELETE promise rejecting (unreachable backend): the code does not catch it,
so the exception propagates (`error`) before the index is touched.  A
missing client returns silently; otherwise the physical delete is issued
(addressed with `versionId` when given), the key is dropped from the
loaded index, and the index is persisted only when `updateKV` is set. -/
def deleteObject (cfgs : List Str) (idx : ClusterIndex) (bucketName key : Str)
    (versionId : Option Str) (updateKV : Bool) (fetchRejects : Bool) :
    Except Unit (ClusterIndex × List Ev) :=
  if ¬ cfgs.contains bucketName then .ok (idx, [])
  else if fetchRejects then .error ()
  else
    let evs := [Ev.physDelete bucketName key versionId]
    match lookupKey idx key with
    | some _ =>
      let idx2 := eraseKey idx key
      if updateKV then .ok (idx2, evs ++ [Ev.persist idx2])
      else .ok (idx2, evs)
    | none => .ok (idx, evs)

/-- The PUT handler of the current `index.ts` revision, as a function of
the persisted index: look up the existing entry; if present, synchronously
delete the prior physical object with its recorded version id and
`updateKV = false` (the physical DELETE is assumed to resolve); select a
target from the already-mutated in-memory index; upload; record and
persist.  `size = none` models a non-numeric `Content-Length` (its NaN
fails every capacity comparison, so no candidate is found and the request
is rejected with 507).  Returns the accepted upload's persisted index and
event trace, `none` when the request is rejected or errors (a rejection
never persists: each request starts a fresh `ClusterManager`). -/
def putAfterDelete (cfgs : List Str) (maxB : Nat) (strategy : Str)
    (del : ClusterIndex × List Ev) (key : Str) (size : Option Nat)
    (resOk : Bool) (resEtag : Str) (resVid : Option Str) (now : Nat) :
    Option (ClusterIndex × List Ev) :=
  match size with
  | none => none
  | some s =>
    match selectBucketForUpload cfgs del.1 maxB strategy s with
    | none => none
    | some target =>
      match putObject cfgs del.1 target key s resOk resEtag resVid now with
      | .error _ => none
      | .ok (idx2, evs2) => some (idx2, del.2 ++ evs2)

def putPipeline (cfgs : List Str) (maxB : Nat) (strategy : Str)
    (idx : ClusterIndex) (key : Str) (size : Option Nat) (resOk : Bool)
    (resEtag : Str) (resVid : Option Str) (now : Nat) :
    Option (ClusterIndex × List Ev) :=
  putAfterDelete cfgs maxB strategy
    (match locateFile idx key with
      | some m =>
        match deleteObject cfgs idx m.bucket key m.versionId false false with
        | .ok p => p
        | .error _ => (idx, [])
      | none => (idx, []))
    key size resOk resEtag resVid now

/-- One client PUT request: key, parsed `Content-Length`, and the backend's
response to the physical write. -/
structure UploadReq where
  key : Str
  size : Option Nat
  resOk : Bool
  resEtag : Str
  resVid : Option Str
  now : Nat
deriving DecidableEq, Repr

/-- The persisted index after one PUT request (unchanged when rejected). -/
def stepUpload (cfgs : List Str) (maxB : Nat) (strategy : Str)
    (idx : ClusterIndex) (u : UploadReq) : ClusterIndex :=
  match putPipeline cfgs maxB strategy idx u.key u.size u.resOk u.resEtag u.resVid u.now with
  | some (idx', _) => idx'
  | none => idx

/-- The persisted index after a finite sequence of PUT requests. -/
def runUploads (cfgs : List Str) (maxB : Nat) (strategy : Str)
    (us : List UploadReq) (idx : ClusterIndex) : ClusterIndex :=
  us.foldl (stepUpload cfgs maxB strategy) idx

/-! ### Index-mutation lemmas -/

theorem setKey_cons (e : Str × FileMetadata) (t : ClusterIndex) (k : Str)
    (m : FileMetadata) :
    setKey (e :: t) k m = if e.1 = k then (k, m) :: t else e :: setKey t k m := rfl

theorem setKey_cons_ne (e : Str × FileMetadata) (t : ClusterIndex) (k : Str)
    (m : FileMetadata) (h : ¬ e.1 = k) :
    setKey (e :: t) k m = e :: setKey t k m := by
  rw [setKey_cons, if_neg h]

theorem lookupKey_setKey (idx : ClusterIndex) (k : Str) (m : FileMetadata) :
    lookupKey (setKey idx k m) k = some m := by
  induction idx with
  | nil =>
    unfold setKey lookupKey
    rw [List.find?_cons_of_pos _ (by simp)]
    rfl
  | cons e t ih =>
    by_cases h : e.1 = k
    · rw [setKey_cons, if_pos h]
      unfold lookupKey
      rw [List.find?_cons_of_pos _ (by simp)]
      rfl
    · rw [setKey_cons_ne e t k m h]
      unfold lookupKey
      rw [List.find?_cons_of_neg _ (by simpa using h)]
      exact ih

theorem setKey_of_not_mem (idx : ClusterIndex) (k : Str) (m : FileMetadata)
    (h : ∀ e ∈ idx, ¬ e.1 = k) : setKey idx k m = idx ++ [(k, m)] := by
  induction idx with
  | nil => simp [setKey]
  | cons e t ih =>
    have h1 : ¬ e.1 = k := h e (by simp)
    rw [setKey_cons_ne e t k m h1, ih (fun x hx => h x (List.mem_cons_of_mem e hx))]
    rfl

theorem lookupKey_none_iff (idx : ClusterIndex) (k : Str) :
    lookupKey idx k = none ↔ ∀ e ∈ idx, ¬ e.1 = k := by
  unfold lookupKey
  rw [Option.map_eq_none', List.find?_eq_none]
  constructor
  · intro h e he he2
    exact h e he (decide_eq_true he2)
  · intro h e he he2
    exact h e he (of_decide_eq_true he2)

theorem eraseKey_not_key (idx : ClusterIndex) (k : Str) :
    ∀ e ∈ eraseKey idx k, ¬ e.1 = k := by
  intro e he
  have := List.of_mem_filter he
  simpa using this

theorem eraseKey_subset (idx : ClusterIndex) (k : Str) :
    ∀ e ∈ eraseKey idx k, e ∈ idx := by
  intro e he
  exact List.mem_of_mem_filter he

theorem bucketTotal_append (idx idx' : ClusterIndex) (b : Str) :
    bucketTotal (idx ++ idx') b = bucketTotal idx b + bucketTotal idx' b := by
  unfold bucketTotal
  rw [List.map_append, List.sum_append]

theorem bucketTotal_single (k : Str) (m : FileMetadata) (b : Str) :
    bucketTotal [(k, m)] b = if m.bucket = b then m.size else 0 := by
  unfold bucketTotal
  simp

theorem bucketTotal_eraseKey_le (idx : ClusterIndex) (k : Str) (b : Str) :
    bucketTotal (eraseKey idx k) b ≤ bucketTotal idx b := by
  unfold bucketTotal eraseKey
  induction idx with
  | nil => simp
  | cons e t ih =>
    by_cases h : e.1 = k
    · rw [List.filter_cons_of_neg (by simpa using h)]
      simp only [List.map_cons, List.sum_cons]
      omega
    · rw [List.filter_cons_of_pos (by simpa using h)]
      simp only [List.map_cons, List.sum_cons]
      omega

theorem select_eq_balanced (cfgs : List Str) (idx : ClusterIndex)
    (maxB s : Nat) :
    selectBucketForUpload cfgs idx maxB "balanced".data s
      = (((computeUsage cfgs idx).mergeSort usageLe).find?
          (fun u => decide (u.2 + s < maxB))).map (·.1) := by
  unfold selectBucketForUpload
  simp

theorem select_eq_fillfirst (cfgs : List Str) (idx : ClusterIndex)
    (maxB : Nat) (strategy : Str) (s : Nat) (h : ¬ strategy = "balanced".data) :
    selectBucketForUpload cfgs idx maxB strategy s
      = ((computeUsage cfgs idx).find? (fun u => decide (u.2 + s < maxB))).map (·.1) := by
  unfold selectBucketForUpload
  simp [if_neg h]

/-- Whatever `selectBucketForUpload` returns is a configured backend that
passes the capacity probe against its summed usage. -/
theorem select_some_spec (cfgs : List Str) (idx : ClusterIndex) (maxB : Nat)
    (strategy : Str) (s : Nat) (c : Str) (hnd : cfgs.Nodup)
    (hwf : ∀ e ∈ idx, e.2.bucket ∈ cfgs)
    (h : selectBucketForUpload cfgs idx maxB strategy s = some c) :
    c ∈ cfgs ∧ bucketTotal idx c + s < maxB := by
  have hU := computeUsage_eq cfgs idx hnd hwf
  set f : Str → Str × Nat := fun c => (c, bucketTotal idx c) with hf
  have hmemU : ∃ u : Str × Nat, u ∈ cfgs.map f ∧ u.1 = c ∧
      (decide (u.2 + s < maxB)) = true := by
    by_cases hstrat : strategy = "balanced".data
    · rw [hstrat, select_eq_balanced, hU] at h
      rcases hfind : ((cfgs.map f).mergeSort usageLe).find?
          (fun u => decide (u.2 + s < maxB)) with _ | u
      · rw [hfind] at h; simp at h
      · refine ⟨u, (List.mergeSort_perm _ usageLe).mem_iff.mp
          (List.mem_of_find?_eq_some hfind), ?_, ?_⟩
        · rw [hfind] at h
          simpa using h
        · have := List.find?_some hfind
          simpa using this
    · rw [select_eq_fillfirst cfgs idx maxB strategy s hstrat, hU] at h
      rcases hfind : (cfgs.map f).find? (fun u => decide (u.2 + s < maxB)) with _ | u
      · rw [hfind] at h; simp at h
      · refine ⟨u, List.mem_of_find?_eq_some hfind, ?_, ?_⟩
        · rw [hfind] at h
          simpa using h
        · have := List.find?_some hfind
          simpa using this
  obtain ⟨u, humem, hu1, hup⟩ := hmemU
  obtain ⟨c₀, hc₀, hfc₀⟩ := List.mem_map.mp humem
  have h1 : c₀ = c := by rw [← hu1, ← hfc₀]
  have h2 : u.2 = bucketTotal idx c := by rw [← h1, ← hfc₀]
  refine ⟨h1 ▸ hc₀, ?_⟩
  rw [← h2]
  simpa using hup

/-- When every configured backend fails the capacity probe, the selector
returns `none` (under the well-formed index hypotheses). -/
theorem select_none_of_full (cfgs : List Str) (idx : ClusterIndex) (maxB : Nat)
    (strategy : Str) (s : Nat) (hnd : cfgs.Nodup)
    (hwf : ∀ e ∈ idx, e.2.bucket ∈ cfgs)
    (hnone : ∀ c ∈ cfgs, ¬ bucketTotal idx c + s < maxB) :
    selectBucketForUpload cfgs idx maxB strategy s = none := by
  have hU := computeUsage_eq cfgs idx hnd hwf
  set f : Str → Str × Nat := fun c => (c, bucketTotal idx c) with hf
  have hfail : ∀ x ∈ cfgs.map f, ¬ (decide (x.2 + s < maxB) = true) := by
    intro x hx
    obtain ⟨c, hcmem, hfc⟩ := List.mem_map.mp hx
    rw [← hfc]
    simpa [hf] using hnone c hcmem
  by_cases hstrat : strategy = "balanced".data
  · rw [hstrat, select_eq_balanced, hU, List.find?_eq_none.mpr]
    · rfl
    · intro x hx
      exact hfail x ((List.mergeSort_perm (cfgs.map f) usageLe).mem_iff.mp hx)
  · rw [select_eq_fillfirst cfgs idx maxB strategy s hstrat, hU,
      List.find?_eq_none.mpr hfail]
    rfl

theorem lookupKey_some_mem (idx : ClusterIndex) (k : Str) (m : FileMetadata)
    (h : lookupKey idx k = some m) : (k, m) ∈ idx := by
  unfold lookupKey at h
  rcases hfind : idx.find? (fun e => decide (e.1 = k)) with _ | e
  · rw [hfind] at h; simp at h
  · rw [hfind] at h
    have he : e ∈ idx := List.mem_of_find?_eq_some hfind
    have hek : e.1 = k := by
      have := List.find?_some hfind
      simpa using this
    have hem : e.2 = m := by simpa using h
    have hkm : e = (k, m) := Prod.ext hek hem
    rw [← hkm]
    exact he

/-- Dissection of the selection/write stage of an accepted PUT. -/
theorem putAfterDelete_some_spec (cfgs : List Str) (maxB : Nat)
    (strategy : Str) (idx1 : ClusterIndex) (evs1 : List Ev) (k : Str) (s : Nat)
    (resOk : Bool) (etag : Str) (vid : Option Str) (now : Nat)
    (idx' : ClusterIndex) (evs : List Ev)
    (hacc : putAfterDelete cfgs maxB strategy (idx1, evs1) k (some s) resOk
      etag vid now = some (idx', evs)) :
    ∃ target, selectBucketForUpload cfgs idx1 maxB strategy s = some target ∧
      cfgs.contains target = true ∧ resOk = true ∧
      idx' = setKey idx1 k ⟨target, s, now, stripQuotes etag, vid⟩ ∧
      evs = evs1 ++ [Ev.physWrite target k, Ev.persist idx'] := by
  unfold putAfterDelete at hacc
  simp only [] at hacc
  rcases hsel : selectBucketForUpload cfgs idx1 maxB strategy s with _ | target
  · rw [hsel] at hacc
    simp at hacc
  · rw [hsel] at hacc
    simp only [] at hacc
    rcases hput : putObject cfgs idx1 target k s resOk etag vid now with u | p
    · rw [hput] at hacc
      simp at hacc
    · rw [hput] at hacc
      obtain ⟨idx2, evs2⟩ := p
      simp only [Option.some.injEq, Prod.mk.injEq] at hacc
      unfold putObject at hput
      by_cases hc : ¬ cfgs.contains target = true
      · rw [if_pos hc] at hput
        exact absurd hput (by simp)
      · rw [if_neg hc] at hput
        by_cases hro : ¬ resOk = true
        · rw [if_pos hro] at hput
          exact absurd hput (by simp)
        · rw [if_neg hro] at hput
          simp only [Except.ok.injEq, Prod.mk.injEq] at hput
          refine ⟨target, rfl, by simpa using hc, by simpa using hro, ?_, ?_⟩
          · rw [← hacc.1, ← hput.1]
          · rw [← hacc.2, ← hput.2, ← hacc.1, ← hput.1]

/-- The delete stage of the pipeline: its in-memory index either is the
loaded index (no existing entry) or has the key erased, and in both cases
the key is absent, entries come from the loaded index, and no bucket's
total grew. -/
theorem pipeline_delete_stage (cfgs : List Str) (idx : ClusterIndex) (k : Str)
    (hwf : ∀ e ∈ idx, e.2.bucket ∈ cfgs) :
    ∃ idx1 evs1,
      (match locateFile idx k with
        | some m =>
          match deleteObject cfgs idx m.bucket k m.versionId false false with
          | .ok p => p
          | .error _ => (idx, [])
        | none => (idx, [])) = (idx1, evs1) ∧
      (∀ e ∈ idx1, e ∈ idx) ∧ (∀ e ∈ idx1, ¬ e.1 = k) ∧
      (∀ b, bucketTotal idx1 b ≤ bucketTotal idx b) := by
  rcases hlook : locateFile idx k with _ | m
  · refine ⟨idx, [], rfl, fun e he => he, ?_, fun b => le_refl _⟩
    intro e he
    exact (lookupKey_none_iff idx k).mp hlook e he
  · have hmem : (k, m) ∈ idx := lookupKey_some_mem idx k m hlook
    have hbk : m.bucket ∈ cfgs := hwf (k, m) hmem
    have hcont : cfgs.contains m.bucket = true := List.elem_eq_true_of_mem hbk
    have hdo : deleteObject cfgs idx m.bucket k m.versionId false false
        = .ok (eraseKey idx k, [Ev.physDelete m.bucket k m.versionId]) := by
      unfold deleteObject
      rw [if_neg (not_not_intro hcont), if_neg (by simp)]
      rw [show lookupKey idx k = some m from hlook]
      rfl
    refine ⟨eraseKey idx k, [Ev.physDelete m.bucket k m.versionId], ?_,
      eraseKey_subset idx k, eraseKey_not_key idx k,
      fun b => bucketTotal_eraseKey_le idx k b⟩
    show (match deleteObject cfgs idx m.bucket k m.versionId false false with
      | .ok p => p
      | .error _ => (idx, [])) = _
    rw [hdo]

/-- Dissection of an accepted PUT: the pipeline parsed a numeric size,
worked on an in-memory index `idx1` (the loaded index with `k`\'s prior
entry deleted in memory), selected a configured target that passes the
capacity probe on `idx1`, and persisted `idx1` plus the new entry. -/
theorem putPipeline_some_spec (cfgs : List Str) (maxB : Nat) (strategy : Str)
    (idx : ClusterIndex) (k : Str) (sz : Option Nat) (resOk : Bool) (etag : Str)
    (vid : Option Str) (now : Nat) (idx' : ClusterIndex) (evs : List Ev)
    (hwf : ∀ e ∈ idx, e.2.bucket ∈ cfgs)
    (hacc : putPipeline cfgs maxB strategy idx k sz resOk etag vid now
      = some (idx', evs)) :
    ∃ s target idx1, sz = some s ∧
      (∀ e ∈ idx1, e ∈ idx) ∧ (∀ e ∈ idx1, ¬ e.1 = k) ∧
      (∀ b, bucketTotal idx1 b ≤ bucketTotal idx b) ∧
      selectBucketForUpload cfgs idx1 maxB strategy s = some target ∧
      cfgs.contains target = true ∧
      idx' = idx1 ++ [(k, ⟨target, s, now, stripQuotes etag, vid⟩)] := by
  obtain ⟨idx1, evs1, hArg, hsub, hnk, hle⟩ := pipeline_delete_stage cfgs idx k hwf
  unfold putPipeline at hacc
  rw [hArg] at hacc
  cases sz with
  | none =>
    unfold putAfterDelete at hacc
    simp at hacc
  | some s =>
    obtain ⟨target, hsel, hcont, hro, hidx, hevs⟩ :=
      putAfterDelete_some_spec cfgs maxB strategy idx1 evs1 k s resOk etag vid
        now idx' evs hacc
    refine ⟨s, target, idx1, rfl, hsub, hnk, hle, hsel, hcont, ?_⟩
    rw [hidx]
    exact setKey_of_not_mem idx1 k _ hnk

/-- C4: on an accepted PUT of key `k` whose index entry points at a
configured backend, the event trace is exactly the physical delete of the
prior object (addressed with its recorded version identifier), then the
physical write to the selected target, then the single persist carrying
the new location: the removal itself persists no index change, and the
index is next persisted only when the new location is recorded. -/
theorem claim4_delete_before_write (cfgs : List Str) (maxB : Nat)
    (strategy : Str) (idx : ClusterIndex) (k : Str) (s : Nat) (resOk : Bool)
    (etag : Str) (vid : Option Str) (now : Nat) (m : FileMetadata)
    (idx' : ClusterIndex) (evs : List Ev)
    (hm : locateFile idx k = some m)
    (hb : m.bucket ∈ cfgs)
    (hacc : putPipeline cfgs maxB strategy idx k (some s) resOk etag vid now
      = some (idx', evs)) :
    ∃ target, target ∈ cfgs ∧
      evs = [Ev.physDelete m.bucket k m.versionId,
             Ev.physWrite target k, Ev.persist idx'] ∧
      lookupKey idx' k = some ⟨target, s, now, stripQuotes etag, vid⟩ := by
  have hcont : cfgs.contains m.bucket = true := List.elem_eq_true_of_mem hb
  have hdo : deleteObject cfgs idx m.bucket k m.versionId false false
      = .ok (eraseKey idx k, [Ev.physDelete m.bucket k m.versionId]) := by
    unfold deleteObject
    rw [if_neg (not_not_intro hcont), if_neg (by simp)]
    rw [show lookupKey idx k = some m from hm]
    rfl
  have hArg : (match locateFile idx k with
      | some m' =>
        match deleteObject cfgs idx m'.bucket k m'.versionId false false with
        | .ok p => p
        | .error _ => (idx, [])
      | none => (idx, []))
      = (eraseKey idx k, [Ev.physDelete m.bucket k m.versionId]) := by
    rw [hm]
    show (match deleteObject cfgs idx m.bucket k m.versionId false false with
      | .ok p => p
      | .error _ => (idx, [])) = _
    rw [hdo]
  unfold putPipeline at hacc
  rw [hArg] at hacc
  obtain ⟨target, hsel, hcont2, hro, hidx, hevs⟩ :=
    putAfterDelete_some_spec cfgs maxB strategy (eraseKey idx k)
      [Ev.physDelete m.bucket k m.versionId] k s resOk etag vid now idx' evs hacc
  refine ⟨target, List.mem_of_elem_eq_true hcont2, ?_, ?_⟩
  · rw [hevs]
    rfl
  · rw [hidx]
    exact lookupKey_setKey (eraseKey idx k) k _

/-- Index with the prior version of key `k` on backend `B`. -/
def idxC4 : ClusterIndex :=
  [("k".data, ⟨"B".data, 10, 0, "e0".data, some "v1".data⟩)]

/-- Witness for C4: re-uploading `k` while it lives on `B` physically
deletes the `B` copy (with version id `v1`) before writing to `A`. -/
theorem claim4_delete_before_write_witness :
    locateFile idxC4 "k".data = some ⟨"B".data, 10, 0, "e0".data, some "v1".data⟩ ∧
    "B".data ∈ cfgsW ∧
    (∃ target, target ∈ cfgsW ∧
      [Ev.physDelete "B".data "k".data (some "v1".data),
       Ev.physWrite "A".data "k".data,
       Ev.persist [("k".data, ⟨"A".data, 5, 9, "e2".data, some "v2".data⟩)]]
        = [Ev.physDelete "B".data "k".data (some "v1".data),
           Ev.physWrite target "k".data,
           Ev.persist [("k".data, ⟨"A".data, 5, 9, "e2".data, some "v2".data⟩)]] ∧
      lookupKey [("k".data, ⟨"A".data, 5, 9, "e2".data, some "v2".data⟩)] "k".data
        = some ⟨target, 5, 9, stripQuotes "e2".data, some "v2".data⟩) := by
  refine ⟨by decide, by decide, ?_⟩
  exact claim4_delete_before_write cfgsW 100 "fill-first".data idxC4 "k".data 5
    true "e2".data (some "v2".data) 9 ⟨"B".data, 10, 0, "e0".data, some "v1".data⟩
    [("k".data, ⟨"A".data, 5, 9, "e2".data, some "v2".data⟩)]
    [Ev.physDelete "B".data "k".data (some "v1".data),
     Ev.physWrite "A".data "k".data,
     Ev.persist [("k".data, ⟨"A".data, 5, 9, "e2".data, some "v2".data⟩)]]
    (by decide) (by decide) (by decide)

/-- One accepted-or-rejected PUT preserves the ceiling and well-formedness
invariants of the persisted index. -/
theorem stepUpload_inv (cfgs : List Str) (maxB : Nat) (strategy : Str)
    (idx : ClusterIndex) (u : UploadReq) (hnd : cfgs.Nodup)
    (hwf : ∀ e ∈ idx, e.2.bucket ∈ cfgs)
    (hcap : ∀ b, bucketTotal idx b ≤ maxB) :
    (∀ e ∈ stepUpload cfgs maxB strategy idx u, e.2.bucket ∈ cfgs) ∧
    (∀ b, bucketTotal (stepUpload cfgs maxB strategy idx u) b ≤ maxB) := by
  unfold stepUpload
  rcases hpp : putPipeline cfgs maxB strategy idx u.key u.size u.resOk
      u.resEtag u.resVid u.now with _ | p
  · exact ⟨hwf, hcap⟩
  · obtain ⟨idx', evs⟩ := p
    obtain ⟨s, target, idx1, hsz, hsub, hnk, hle, hsel, hcont, hidx⟩ :=
      putPipeline_some_spec cfgs maxB strategy idx u.key u.size u.resOk
        u.resEtag u.resVid u.now idx' evs hwf hpp
    have hwf1 : ∀ e ∈ idx1, e.2.bucket ∈ cfgs := fun e he => hwf e (hsub e he)
    obtain ⟨htmem, htcap⟩ :=
      select_some_spec cfgs idx1 maxB strategy s target hnd hwf1 hsel
    show (∀ e ∈ idx', e.2.bucket ∈ cfgs) ∧ (∀ b, bucketTotal idx' b ≤ maxB)
    constructor
    · intro e he
      rw [hidx] at he
      rcases List.mem_append.mp he with he | he
      · exact hwf1 e he
      · rw [List.mem_singleton] at he
        rw [he]
        exact htmem
    · intro b
      rw [hidx, bucketTotal_append, bucketTotal_single]
      by_cases hbt : target = b
      · subst hbt
        have h1 := hle target
        simp only [if_pos rfl]
        simp only [if_true]
        omega
      · simp only [if_neg hbt]
        have := hle b
        have := hcap b
        omega

/-- C2 (amended): starting from an index within the ceiling whose entries
all reference configured backends, after each accepted upload of the
sequence no backend's summed `sizeBytes` exceeds the ceiling (and the
index stays well formed); and once every configured backend's usage is
within `sizeBytes` of the ceiling, `selectBucketForUpload` returns none
for that size. -/
theorem claim2_placement_ceiling (cfgs : List Str) (maxB : Nat)
    (strategy : Str) (us : List UploadReq) (idx : ClusterIndex)
    (hnd : cfgs.Nodup)
    (hwf : ∀ e ∈ idx, e.2.bucket ∈ cfgs)
    (hcap : ∀ b, bucketTotal idx b ≤ maxB) :
    (∀ e ∈ runUploads cfgs maxB strategy us idx, e.2.bucket ∈ cfgs) ∧
    (∀ b, bucketTotal (runUploads cfgs maxB strategy us idx) b ≤ maxB) ∧
    (∀ s : Nat,
      (∀ c ∈ cfgs, ¬ bucketTotal (runUploads cfgs maxB strategy us idx) c + s < maxB) →
      selectBucketForUpload cfgs (runUploads cfgs maxB strategy us idx) maxB
        strategy s = none) := by
  have hrun : ∀ (vs : List UploadReq) (j : ClusterIndex),
      (∀ e ∈ j, e.2.bucket ∈ cfgs) → (∀ b, bucketTotal j b ≤ maxB) →
      (∀ e ∈ runUploads cfgs maxB strategy vs j, e.2.bucket ∈ cfgs) ∧
      (∀ b, bucketTotal (runUploads cfgs maxB strategy vs j) b ≤ maxB) := by
    intro vs
    induction vs with
    | nil => intro j h1 h2; exact ⟨h1, h2⟩
    | cons u t ih =>
      intro j h1 h2
      obtain ⟨g1, g2⟩ := stepUpload_inv cfgs maxB strategy j u hnd h1 h2
      exact ih (stepUpload cfgs maxB strategy j u) g1 g2
  obtain ⟨hwfR, hcapR⟩ := hrun us idx hwf hcap
  refine ⟨hwfR, hcapR, ?_⟩
  intro s hfull
  exact select_none_of_full cfgs _ maxB strategy s hnd hwfR hfull

/-- The §8 scenario: two 60-byte uploads against two 100-byte backends. -/
def usW : List UploadReq :=
  [⟨"x".data, some 60, true, "e1".data, none, 1⟩,
   ⟨"y".data, some 60, true, "e2".data, none, 2⟩]

/-- Witness for C2 (amended) on the concrete fill-first scenario. -/
theorem claim2_placement_ceiling_witness :
    cfgsW.Nodup ∧
    (∀ b, bucketTotal ([] : ClusterIndex) b ≤ 100) ∧
    (∀ b, bucketTotal (runUploads cfgsW 100 "fill-first".data usW []) b ≤ 100) := by
  have h := claim2_placement_ceiling cfgsW 100 "fill-first".data usW []
    (by decide) (by intro e he; simp at he) (by intro b; simp [bucketTotal])
  refine ⟨by decide, by intro b; simp [bucketTotal], h.2.1⟩

/-- Start state already over the ceiling on `A`. -/
def idx2c : ClusterIndex := [("k1".data, ⟨"A".data, 200, 0, "e".data, none⟩)]

/-- The second upload request of the counterexample run. -/
def u2c : UploadReq := ⟨"k2".data, some 10, true, "e".data, none, 7⟩

/-- Counterexample to C2 as stated (over every index state): from a start
state whose backend `A` already exceeds the ceiling, an upload is still
accepted (placed on `B`) and `A`'s summed size stays above the ceiling;
and with a stale entry for an unconfigured backend, the selector returns
a backend even though every configured backend is within `sizeBytes` of
the ceiling. -/
theorem claim2_counterexample :
    (putPipeline cfgsW 100 "fill-first".data idx2c "k2".data (some 10) true
      "e".data none 7).isSome = true ∧
    bucketTotal (stepUpload cfgsW 100 "fill-first".data idx2c u2c) "A".data = 200 ∧
    ¬ (bucketTotal (stepUpload cfgsW 100 "fill-first".data idx2c u2c) "A".data ≤ 100) ∧
    (∀ c ∈ cfgsX, ¬ bucketTotal idxX c + 10 < 50) ∧
    ¬ selectBucketForUpload cfgsX idxX 50 "fill-first".data 10 = none := by
  refine ⟨by decide, by decide, by decide, by decide, by decide⟩

/-- C7: a `putObject` that succeeds, followed immediately by `locateFile`,
returns the location whose backend is the bucket just written to, whose
size is the size just written, and whose entity tag is the backend's
entity tag with quotes stripped. -/
theorem claim7_put_then_locate (cfgs : List Str) (idx : ClusterIndex)
    (bucket key : Str) (size : Nat) (etag : Str) (vid : Option Str) (now : Nat)
    (idx2 : ClusterIndex) (evs : List Ev) (resOk : Bool)
    (hok : putObject cfgs idx bucket key size resOk etag vid now = .ok (idx2, evs)) :
    locateFile idx2 key = some ⟨bucket, size, now, stripQuotes etag, vid⟩ := by
  unfold putObject at hok
  by_cases h1 : ¬ cfgs.contains bucket = true
  · rw [if_pos h1] at hok
    exact absurd hok (by simp)
  · rw [if_neg h1] at hok
    by_cases h2 : ¬ resOk = true
    · rw [if_pos h2] at hok
      exact absurd hok (by simp)
    · rw [if_neg h2] at hok
      simp only [Except.ok.injEq, Prod.mk.injEq] at hok
      rw [locateFile, ← hok.1]
      exact lookupKey_setKey idx key _

/-- Witness for C7: write 5 bytes to `A` under key `k`, then locate it. -/
theorem claim7_put_then_locate_witness :
    putObject cfgsW [] "A".data "k".data 5 true "e1".data none 9
      = .ok ([("k".data, ⟨"A".data, 5, 9, "e1".data, none⟩)],
        [Ev.physWrite "A".data "k".data,
         Ev.persist [("k".data, ⟨"A".data, 5, 9, "e1".data, none⟩)]]) ∧
    locateFile [("k".data, ⟨"A".data, 5, 9, "e1".data, none⟩)] "k".data
      = some ⟨"A".data, 5, 9, stripQuotes "e1".data, none⟩ :=
  ⟨by rfl,
   claim7_put_then_locate cfgsW [] "A".data "k".data 5 "e1".data none 9
     [("k".data, ⟨"A".data, 5, 9, "e1".data, none⟩)]
     [Ev.physWrite "A".data "k".data,
      Ev.persist [("k".data, ⟨"A".data, 5, 9, "e1".data, none⟩)]] true (by rfl)⟩

/-- A one-entry index for the deleteObject failure scenario. -/
def idxC8 : ClusterIndex := [("k".data, ⟨"A".data, 5, 0, "e".data, none⟩)]

/-- C8 at the failing input: when the physical DELETE call rejects
(unreachable backend), `deleteObject` propagates the exception and the
key is not removed from the index — contradicting the claim; when the
call resolves (even with a non-2xx status, which the code never checks),
the removal and the persist do proceed. -/
theorem claim8_deleteObject_unreachable :
    deleteObject cfgsX idxC8 "A".data "k".data none true true = .error () ∧
    deleteObject cfgsX idxC8 "A".data "k".data none true false
      = .ok ([], [Ev.physDelete "A".data "k".data none, Ev.persist []]) := by
  refine ⟨by rfl, by rfl⟩

/-! ### C9: `rebuildIndex` -/

/-- One `<Version>` record from a `?versions` listing page (delete markers
are separate `<DeleteMarker>` elements, which the code never reads: it
iterates `result.Version` only).  `isLatest` is the parsed
`IsLatest === 'true'` test. -/
structure VersionRec where
  key : Str
  isLatest : Bool
  size : Nat
  lastModified : Nat
  etag : Str
  versionId : Option Str
deriving DecidableEq, Repr

/-- One listing call's outcome: a non-ok response or a thrown error
(`fail`, the loop `break`s), or a parsed page with its `IsTruncated`
flag. -/
inductive Page where
  | fail
  | ok (versions : List VersionRec) (truncated : Bool)
deriving DecidableEq, Repr

/-- The `for (const v of versions)` body: record only `IsLatest` rows. -/
def insertLatest (bname : Str) (idx : ClusterIndex) (vs : List VersionRec) :
    ClusterIndex :=
  vs.foldl (fun idx v =>
    if v.isLatest then
      setKey idx v.key ⟨bname, v.size, v.lastModified, v.etag, v.versionId⟩
    else idx) idx

/-- One backend's do/while pagination loop over its successive listing
responses: stop on failure or when `IsTruncated` is not `'true'`. -/
def processBackend (bname : Str) : List Page → ClusterIndex → ClusterIndex
  | [], idx => idx
  | Page.fail :: _, idx => idx
  | Page.ok vs true :: rest, idx => processBackend bname rest (insertLatest bname idx vs)
  | Page.ok vs false :: _, idx => insertLatest bname idx vs

/-- `ClusterManager.rebuildIndex`: every backend's task fills the shared
map (the model fixes one completion order; the spec leaves duplicate-key
ties nondeterministic), then — after `Promise.all` — the merged map is
saved once.  The trace records the single persist. -/
def rebuildIndex (backends : List (Str × List Page)) : ClusterIndex × List Ev :=
  let newIndex := backends.foldl (fun idx b => processBackend b.1 b.2 idx) []
  (newIndex, [Ev.persist newIndex])

/-- The version records a page carries. -/
def pageVersions : Page → List VersionRec
  | Page.fail => []
  | Page.ok vs _ => vs

/-- `v` appears on one of the backend's listing pages. -/
def listedBy (pages : List Page) (v : VersionRec) : Prop :=
  ∃ p ∈ pages, v ∈ pageVersions p

theorem mem_setKey (idx : ClusterIndex) (k : Str) (m : FileMetadata)
    (e : Str × FileMetadata) (h : e ∈ setKey idx k m) : e ∈ idx ∨ e = (k, m) := by
  induction idx with
  | nil =>
    simp [setKey] at h
    right
    rw [h]
  | cons x t ih =>
    rw [setKey_cons] at h
    by_cases hx : x.1 = k
    · rw [if_pos hx] at h
      rcases List.mem_cons.mp h with h | h
      · right; rw [h]
      · left; exact List.mem_cons_of_mem x h
    · rw [if_neg hx] at h
      rcases List.mem_cons.mp h with h | h
      · left; exact h ▸ List.mem_cons_self x t
      · rcases ih h with h | h
        · left; exact List.mem_cons_of_mem x h
        · right; exact h

theorem mem_insertLatest (bname : Str) (vs : List VersionRec) :
    ∀ (idx : ClusterIndex) (e : Str × FileMetadata),
      e ∈ insertLatest bname idx vs → e ∈ idx ∨
        ∃ v ∈ vs, v.isLatest = true ∧
          e = (v.key, ⟨bname, v.size, v.lastModified, v.etag, v.versionId⟩) := by
  induction vs with
  | nil => intro idx e h; left; exact h
  | cons v t ih =>
    intro idx e h
    unfold insertLatest at h
    rw [List.foldl_cons] at h
    by_cases hl : v.isLatest = true
    · rw [if_pos hl] at h
      rcases ih _ e h with h | ⟨v', hv', hl', he'⟩
      · rcases mem_setKey idx v.key _ e h with h | h
        · left; exact h
        · right; exact ⟨v, by simp, hl, h⟩
      · right; exact ⟨v', List.mem_cons_of_mem v hv', hl', he'⟩
    · rw [if_neg hl] at h
      rcases ih _ e h with h | ⟨v', hv', hl', he'⟩
      · left; exact h
      · right; exact ⟨v', List.mem_cons_of_mem v hv', hl', he'⟩

theorem mem_processBackend (bname : Str) :
    ∀ (pages : List Page) (idx : ClusterIndex) (e : Str × FileMetadata),
      e ∈ processBackend bname pages idx → e ∈ idx ∨
        ∃ v, listedBy pages v ∧ v.isLatest = true ∧
          e = (v.key, ⟨bname, v.size, v.lastModified, v.etag, v.versionId⟩) := by
  intro pages
  induction pages with
  | nil => intro idx e h; left; exact h
  | cons p rest ih =>
    intro idx e h
    match p with
    | Page.fail => left; exact h
    | Page.ok vs true =>
      rcases ih (insertLatest bname idx vs) e h with h | ⟨v, hlist, hl, he⟩
      · rcases mem_insertLatest bname vs idx e h with h | ⟨v, hv, hl, he⟩
        · left; exact h
        · right
          exact ⟨v, ⟨Page.ok vs true, by simp, hv⟩, hl, he⟩
      · right
        obtain ⟨pg, hpg, hvpg⟩ := hlist
        exact ⟨v, ⟨pg, List.mem_cons_of_mem _ hpg, hvpg⟩, hl, he⟩
    | Page.ok vs false =>
      rcases mem_insertLatest bname vs idx e h with h | ⟨v, hv, hl, he⟩
      · left; exact h
      · right
        exact ⟨v, ⟨Page.ok vs false, by simp, hv⟩, hl, he⟩

/-- C9 (amended): every recorded entry comes from a listed version flagged
latest (delete markers never enter `result.Version` and non-latest rows
are skipped); the merged map is persisted exactly once, after every
backend's enumeration; a failing listing call stops that backend's
enumeration without contributing further entries (entries from pages
listed before the failure are kept) and without affecting the fold for
the other backends; a backend whose first call fails contributes
nothing. -/
theorem claim9_rebuildIndex (bs : List (Str × List Page)) :
    (∀ e ∈ (rebuildIndex bs).1, ∃ b pages v, (b, pages) ∈ bs ∧
      listedBy pages v ∧ v.isLatest = true ∧
      e = (v.key, ⟨b, v.size, v.lastModified, v.etag, v.versionId⟩)) ∧
    ((rebuildIndex bs).2 = [Ev.persist (rebuildIndex bs).1]) ∧
    (∀ b pre rest idx, processBackend b (pre ++ Page.fail :: rest) idx
        = processBackend b (pre ++ [Page.fail]) idx) ∧
    (∀ b rest idx, processBackend b (Page.fail :: rest) idx = idx) := by
  refine ⟨?_, rfl, ?_, fun b rest idx => rfl⟩
  · have hfold : ∀ (l : List (Str × List Page)) (idx0 : ClusterIndex)
        (e : Str × FileMetadata),
        e ∈ l.foldl (fun idx b => processBackend b.1 b.2 idx) idx0 →
        e ∈ idx0 ∨ ∃ b pages v, (b, pages) ∈ l ∧ listedBy pages v ∧
          v.isLatest = true ∧
          e = (v.key, ⟨b, v.size, v.lastModified, v.etag, v.versionId⟩) := by
      intro l
      induction l with
      | nil => intro idx0 e h; left; exact h
      | cons bk t ih =>
        intro idx0 e h
        rw [List.foldl_cons] at h
        rcases ih _ e h with h | ⟨b, pages, v, hmem, hrest⟩
        · rcases mem_processBackend bk.1 bk.2 idx0 e h with h | ⟨v, hl, hlatest, he⟩
          · left; exact h
          · right
            exact ⟨bk.1, bk.2, v, by simp, hl, hlatest, he⟩
        · right
          exact ⟨b, pages, v, List.mem_cons_of_mem bk hmem, hrest⟩
    intro e he
    rcases hfold bs [] e he with h | h
    · simp at h
    · exact h
  · intro b pre
    induction pre with
    | nil => intro rest idx; rfl
    | cons p pre' ih =>
      intro rest idx
      match p with
      | Page.fail => rfl
      | Page.ok vs true =>
        show processBackend b (pre' ++ Page.fail :: rest) (insertLatest b idx vs)
          = processBackend b (pre' ++ [Page.fail]) (insertLatest b idx vs)
        exact ih rest (insertLatest b idx vs)
      | Page.ok vs false => rfl

/-- A latest version listed on backend `A`'s first (truncated) page. -/
def vA : VersionRec := ⟨"x".data, true, 5, 1, "e".data, some "v1".data⟩

/-- Counterexample to C9 as stated: backend `A`'s listing fails on its
second call, yet `A` still contributes the entry listed on the first
page — a failing backend does not contribute "no entries". -/
theorem claim9_counterexample :
    (∃ p ∈ [Page.ok [vA] true, Page.fail], p = Page.fail) ∧
    (rebuildIndex [("A".data, [Page.ok [vA] true, Page.fail])]).1
      = [("x".data, ⟨"A".data, 5, 1, "e".data, some "v1".data⟩)] ∧
    ¬ (rebuildIndex [("A".data, [Page.ok [vA] true, Page.fail])]).1 = [] := by
  refine ⟨⟨Page.fail, by simp, rfl⟩, by rfl, by simp [rebuildIndex, processBackend, insertLatest, setKey, vA]⟩

/-- Witness for C9 (amended) at a two-backend listing. -/
theorem claim9_rebuildIndex_witness :
    ((rebuildIndex [("A".data, [Page.ok [vA] false]), ("B".data, [Page.fail])]).2
      = [Ev.persist (rebuildIndex
          [("A".data, [Page.ok [vA] false]), ("B".data, [Page.fail])]).1]) ∧
    (∀ e ∈ (rebuildIndex [("A".data, [Page.ok [vA] false]), ("B".data, [Page.fail])]).1,
      ∃ b pages v, (b, pages) ∈ [("A".data, [Page.ok [vA] false]), ("B".data, [Page.fail])] ∧
        listedBy pages v ∧ v.isLatest = true ∧
        e = (v.key, ⟨b, v.size, v.lastModified, v.etag, v.versionId⟩)) := by
  have h := claim9_rebuildIndex [("A".data, [Page.ok [vA] false]), ("B".data, [Page.fail])]
  exact ⟨h.2.1, h.1⟩

/-! ### The Signature V4 verifier (`auth.ts`)

SHA-256 and HMAC-SHA256 are implemented concretely over byte lists
(validated against the FIPS 180-4 / RFC 4231 test vectors); JS strings
remain `List Char`, and `TextEncoder().encode` is UTF-8. -/

def rotr (n x : Nat) : Nat := ((x >>> n) ||| (x <<< (32 - n))) % 4294967296

def smallSigma0 (x : Nat) : Nat := (rotr 7 x) ^^^ (rotr 18 x) ^^^ (x >>> 3)

def smallSigma1 (x : Nat) : Nat := (rotr 17 x) ^^^ (rotr 19 x) ^^^ (x >>> 10)

def bigSigma0 (x : Nat) : Nat := (rotr 2 x) ^^^ (rotr 13 x) ^^^ (rotr 22 x)

def bigSigma1 (x : Nat) : Nat := (rotr 6 x) ^^^ (rotr 11 x) ^^^ (rotr 25 x)

def sha256K : List Nat :=
  [1116352408, 1899447441, 3049323471, 3921009573, 961987163, 1508970993,
   2453635748, 2870763221, 3624381080, 310598401, 607225278, 1426881987,
   1925078388, 2162078206, 2614888103, 3248222580, 3835390401, 4022224774,
   264347078, 604807628, 770255983, 1249150122, 1555081692, 1996064986,
   2554220882, 2821834349, 2952996808, 3210313671, 3336571891, 3584528711,
   113926993, 338241895, 666307205, 773529912, 1294757372, 1396182291,
   1695183700, 1986661051, 2177026350, 2456956037, 2730485921, 2820302411,
   3259730800, 3345764771, 3516065817, 3600352804, 4094571909, 275423344,
   430227734, 506948616, 659060556, 883997877, 958139571, 1322822218,
   1537002063, 1747873779, 1955562222, 2024104815, 2227730452, 2361852424,
   2428436474, 2756734187, 3204031479, 3329325298]

def sha256H0 : List Nat :=
  [1779033703, 3144134277, 1013904242, 2773480762,
   1359893119, 2600822924, 528734635, 1541459225]

def be64 (n : Nat) : List Nat :=
  [(n >>> 56) % 256, (n >>> 48) % 256, (n >>> 40) % 256, (n >>> 32) % 256,
   (n >>> 24) % 256, (n >>> 16) % 256, (n >>> 8) % 256, n % 256]

def padMsg (msg : List Nat) : List Nat :=
  let z := (120 - ((msg.length + 1) % 64)) % 64
  msg ++ [0x80] ++ List.replicate z 0 ++ be64 (msg.length * 8)

def toBlocksAux : Nat → List Nat → List (List Nat)
  | 0, _ => []
  | _, [] => []
  | fuel + 1, l => l.take 64 :: toBlocksAux fuel (l.drop 64)

def toBlocks (l : List Nat) : List (List Nat) := toBlocksAux (l.length + 1) l

def toWords : List Nat → List Nat
  | b0 :: b1 :: b2 :: b3 :: rest => (((b0 * 256 + b1) * 256 + b2) * 256 + b3) :: toWords rest
  | _ => []

def extendScheduleAux : Nat → List Nat → List Nat
  | 0, w => w
  | fuel + 1, w =>
    if 64 ≤ w.length then w
    else
      let n := w.length
      extendScheduleAux fuel (w ++ [(smallSigma1 (w.getD (n - 2) 0) + w.getD (n - 7) 0 +
        smallSigma0 (w.getD (n - 15) 0) + w.getD (n - 16) 0) % 4294967296])

def extendSchedule (w : List Nat) : List Nat := extendScheduleAux 64 w

def compressRound (st : List Nat) (kw : Nat × Nat) : List Nat :=
  match st with
  | [a, b, c, d, e, f, g, h] =>
    let t1 := (h + bigSigma1 e + ((e &&& f) ^^^ ((e ^^^ 0xffffffff) &&& g)) + kw.1 + kw.2) % 4294967296
    let t2 := (bigSigma0 a + ((a &&& b) ^^^ (a &&& c) ^^^ (b &&& c))) % 4294967296
    [(t1 + t2) % 4294967296, a, b, c, (d + t1) % 4294967296, e, f, g]
  | other => other

def compressBlock (h : List Nat) (block : List Nat) : List Nat :=
  let w := extendSchedule (toWords block)
  let st := (sha256K.zip w).foldl compressRound h
  List.zipWith (fun a b => (a + b) % 4294967296) h st

def sha256Bytes (msg : List Nat) : List Nat :=
  let hs := (toBlocks (padMsg msg)).foldl compressBlock sha256H0
  hs.foldr (fun w acc => [(w >>> 24) % 256, (w >>> 16) % 256, (w >>> 8) % 256, w % 256] ++ acc) []

def hmacSha256 (key msg : List Nat) : List Nat :=
  let k0 := if 64 < key.length then sha256Bytes key else key
  let kp := k0 ++ List.replicate (64 - k0.length) 0
  sha256Bytes ((kp.map (fun b => b ^^^ 0x5c)) ++
    sha256Bytes ((kp.map (fun b => b ^^^ 0x36)) ++ msg))

/-- Lowercase hex of one nibble (`b.toString(16)`). -/
def hexDigit (n : Nat) : Char := if n < 10 then Char.ofNat (48 + n) else Char.ofNat (87 + n)

/-- `bufferToHex`: lowercase hex, two digits per byte. -/
def bytesToHex (bs : List Nat) : Str :=
  bs.foldr (fun b acc => hexDigit (b / 16 % 16) :: hexDigit (b % 16) :: acc) []

/-- `TextEncoder().encode`: UTF-8 bytes of one scalar. -/
def utf8Char (c : Char) : List Nat :=
  let n := c.toNat
  if n < 0x80 then [n]
  else if n < 0x800 then [0xc0 ||| (n >>> 6), 0x80 ||| (n &&& 0x3f)]
  else if n < 0x10000 then
    [0xe0 ||| (n >>> 12), 0x80 ||| ((n >>> 6) &&& 0x3f), 0x80 ||| (n &&& 0x3f)]
  else
    [0xf0 ||| (n >>> 18), 0x80 ||| ((n >>> 12) &&& 0x3f),
     0x80 ||| ((n >>> 6) &&& 0x3f), 0x80 ||| (n &&& 0x3f)]

def utf8 (s : Str) : List Nat := (s.map utf8Char).flatten

/-! String utilities mirroring the JS operations used by `auth.ts`. -/

/-- The JS regex `\s` class (the code points relevant here). -/
def isJsSpace (c : Char) : Bool :=
  c = ' ' ∨ c.toNat = 9 ∨ c.toNat = 10 ∨ c.toNat = 11 ∨ c.toNat = 12 ∨
  c.toNat = 13 ∨ c.toNat = 160 ∨ c.toNat = 0xfeff

/-- `String.prototype.trim`. -/
def jsTrim (s : Str) : Str :=
  ((s.dropWhile isJsSpace).reverse.dropWhile isJsSpace).reverse

/-- `value.replace(/\s+/g, ' ')`: each maximal whitespace run becomes one
space (`prevWs` remembers whether the previous character was whitespace). -/
def collapseWsAux : Bool → Str → Str
  | _, [] => []
  | prevWs, c :: t =>
    if isJsSpace c then
      if prevWs then collapseWsAux true t else ' ' :: collapseWsAux true t
    else c :: collapseWsAux false t

def collapseWs (s : Str) : Str := collapseWsAux false s

/-- The canonical-header value normalisation:
`value.replace(/\s+/g, ' ').trim()`. -/
def normalizeHeaderValue (v : Str) : Str := jsTrim (collapseWs v)

/-- ASCII `toLowerCase` (the header names involved are ASCII). -/
def toLowerChar (c : Char) : Char :=
  if 'A' ≤ c ∧ c ≤ 'Z' then Char.ofNat (c.toNat + 32) else c

def toLowerStr (s : Str) : Str := s.map toLowerChar

def splitOnCharAux (sep : Char) : Str → Str → List Str
  | [], acc => [acc.reverse]
  | c :: t, acc =>
    if c = sep then acc.reverse :: splitOnCharAux sep t []
    else splitOnCharAux sep t (c :: acc)

/-- `s.split(sep)` for a one-character separator. -/
def splitOnChar (sep : Char) (s : Str) : List Str := splitOnCharAux sep s []

/-- Header list of a request; `Headers.get` is case-insensitive. -/
abbrev ReqHeaders := List (Str × Str)

def hGet (hs : ReqHeaders) (name : Str) : Option Str :=
  (hs.find? (fun e => toLowerStr e.1 = toLowerStr name)).map (·.2)

/-- JS `x || y` over a nullable string: `null` and `''` both fall through. -/
def jsOr (a : Option Str) (b : Str) : Str :=
  match a with
  | some v => if v = [] then b else v
  | none => b

/-- `encodeURIComponent` keep set. -/
def isUnreservedComp (c : Char) : Bool :=
  ('A' ≤ c ∧ c ≤ 'Z') ∨ ('a' ≤ c ∧ c ≤ 'z') ∨ ('0' ≤ c ∧ c ≤ '9') ∨
  c = '-' ∨ c = '_' ∨ c = '.' ∨ c = '!' ∨ c = '~' ∨ c = '*' ∨
  c.toNat = 39 ∨ c = '(' ∨ c = ')'

/-- `encodeURI` additionally keeps the URI reserved characters. -/
def isURIKeep (c : Char) : Bool :=
  isUnreservedComp c ∨ c = ';' ∨ c = '/' ∨ c = '?' ∨ c = ':' ∨ c = '@' ∨
  c = '&' ∨ c = '=' ∨ c = '+' ∨ c = '$' ∨ c = ',' ∨ c = '#'

def hexDigitUpper (n : Nat) : Char :=
  if n < 10 then Char.ofNat (48 + n) else Char.ofNat (55 + n)

def pctByte (b : Nat) : Str := ['%', hexDigitUpper (b / 16 % 16), hexDigitUpper (b % 16)]

def encodeURIComponent (s : Str) : Str :=
  (s.map (fun c =>
    if isUnreservedComp c then [c] else ((utf8Char c).map pctByte).flatten)).flatten

def encodeURI (s : Str) : Str :=
  (s.map (fun c =>
    if isURIKeep c then [c] else ((utf8Char c).map pctByte).flatten)).flatten

/-- Stable insertion step of the query sort: `x` goes before `y` only when
its key is strictly smaller under `k1.localeCompare(k2)`, modelled as
code-unit comparison (ICU collation agrees on the ASCII keys at issue). -/
def insertByKey (x : Str × Str) : List (Str × Str) → List (Str × Str)
  | [] => [x]
  | y :: t => if strLtB x.1 y.1 then x :: y :: t else y :: insertByKey x t

/-- The stable by-key sort of `Array.from(url.searchParams).sort(...)`. -/
def sortByKey : List (Str × Str) → List (Str × Str)
  | [] => []
  | x :: t => insertByKey x (sortByKey t)

def joinSep (sep : Char) : List Str → Str
  | [] => []
  | [x] => x
  | x :: rest => x ++ sep :: joinSep sep rest

/-- Sort query pairs by key, percent-encode both sides, join with `&`. -/
def canonicalQueryString (params : List (Str × Str)) : Str :=
  joinSep '&' ((sortByKey params).map
    (fun kv => encodeURIComponent kv.1 ++ '=' :: encodeURIComponent kv.2))

/-- The `headersToSign.map(h => h:value\n).join('')` block. -/
def canonicalHeaders (hs : ReqHeaders) (signedHeaders : Str) : Str :=
  (((splitOnChar ';' signedHeaders).map (fun h0 => toLowerStr (jsTrim h0))).map
    (fun h => h ++ ':' :: normalizeHeaderValue ((hGet hs h).getD []) ++ ['\n'])).flatten

/-- `Signature=([a-f0-9]+)` character class. -/
def isHexLowerDigit (c : Char) : Bool := ('a' ≤ c ∧ c ≤ 'f') ∨ ('0' ≤ c ∧ c ≤ '9')

/-- Leftmost match of `Signature=([a-f0-9]+)` (greedy hex run). -/
def findSignature : Str → Option Str
  | [] => none
  | c :: t =>
    if ("Signature=".data).isPrefixOf (c :: t) then
      let g := ((c :: t).drop 10).takeWhile isHexLowerDigit
      if g = [] then findSignature t else some g
    else findSignature t

/-- Leftmost match of `SignedHeaders=([^,]+)` (greedy non-comma run). -/
def findSignedHeaders : Str → Option Str
  | [] => none
  | c :: t =>
    if ("SignedHeaders=".data).isPrefixOf (c :: t) then
      let g := ((c :: t).drop 14).takeWhile (fun x => ¬ x = ',')
      if g = [] then findSignedHeaders t else some g
    else findSignedHeaders t

/-- The forced parse of `([^/]+)\/([^/]+)\/([^/]+)\/s3\/aws4_request` right
after a `Credential=` occurrence (each greedy `[^/]+` is forced to stop at
the next slash, so the regex admits no backtracking here). -/
def tryCredAt (s : Str) : Option (Str × Str × Str) :=
  let p1 := s.span (fun c => ¬ c = '/')
  if p1.1 = [] then none else
  match p1.2 with
  | '/' :: r1 =>
    let p2 := r1.span (fun c => ¬ c = '/')
    if p2.1 = [] then none else
    match p2.2 with
    | '/' :: r2 =>
      let p3 := r2.span (fun c => ¬ c = '/')
      if p3.1 = [] then none else
      match p3.2 with
      | '/' :: r3 =>
        if ("s3/aws4_request".data).isPrefixOf r3 then some (p1.1, p2.1, p3.1)
        else none
      | _ => none
    | _ => none
  | _ => none

/-- Leftmost match of the `Credential=` pattern. -/
def findCredential : Str → Option (Str × Str × Str)
  | [] => none
  | c :: t =>
    if ("Credential=".data).isPrefixOf (c :: t) then
      match tryCredAt ((c :: t).drop 11) with
      | some g => some g
      | none => findCredential t
    else findCredential t

/-- `new URL(request.url)` outcome: pathname plus the decoded
`searchParams` pairs in order. -/
structure ParsedUrl where
  pathname : Str
  searchParams : List (Str × Str)
deriving DecidableEq, Repr

/-- An inbound request.  `urlParse = none` models the `URL` constructor
throwing on a malformed `request.url` (the one throw site inside the
`try` of `verify`). -/
structure Req where
  method : Str
  urlParse : Option ParsedUrl
  headers : ReqHeaders
deriving DecidableEq, Repr

def sha256HexStr (s : Str) : Str := bytesToHex (sha256Bytes (utf8 s))

/-- The four-stage signing-key derivation. -/
def deriveSigningKey (secret ds rg : Str) : List Nat :=
  let kDate := hmacSha256 (utf8 ("AWS4".data ++ secret)) (utf8 ds)
  let kRegion := hmacSha256 kDate (utf8 rg)
  let kService := hmacSha256 kRegion (utf8 "s3".data)
  hmacSha256 kService (utf8 "aws4_request".data)

/-- The signature `verifySignature` recomputes for a request, given the
credential fields and the raw `SignedHeaders` capture. -/
def calcSignature (secret ds rg : Str) (r : Req) (url : ParsedUrl)
    (nowIso : Str) (signedHeaders : Str) : Str :=
  let datetime := jsOr (hGet r.headers "x-amz-date".data)
    (jsOr (hGet r.headers "date".data) nowIso)
  let canonicalUri := encodeURI url.pathname
  let cqs := canonicalQueryString url.searchParams
  let ch := canonicalHeaders r.headers signedHeaders
  let payloadHash := jsOr (hGet r.headers "x-amz-content-sha256".data)
    ("UNSIGNED-PAYLOAD".data)
  let canonicalRequest := r.method ++ '\n' :: canonicalUri ++ '\n' :: cqs ++
    '\n' :: ch ++ '\n' :: signedHeaders ++ '\n' :: payloadHash
  let credentialScope := ds ++ '/' :: rg ++ "/s3/aws4_request".data
  let stringToSign := "AWS4-HMAC-SHA256".data ++ '\n' :: datetime ++
    '\n' :: credentialScope ++ '\n' :: sha256HexStr canonicalRequest
  bytesToHex (hmacSha256 (deriveSigningKey secret ds rg) (utf8 stringToSign))

/-- `AuthMiddleware.verifySignature`: parse the `Signature` and
`SignedHeaders` captures, rebuild the canonical request, and compare. -/
def verifySignatureE (secret ds rg authHeader : Str) (r : Req)
    (nowIso : Str) : Except Unit Bool :=
  match r.urlParse with
  | none => .error ()
  | some url =>
    match findSignature authHeader, findSignedHeaders authHeader with
    | some clientSignature, some signedHeaders =>
      .ok (decide (calcSignature secret ds rg r url nowIso signedHeaders
        = clientSignature))
    | _, _ => .ok false

/-- `AuthMiddleware.verify`: scheme prefix, credential parse, access-key
check, lenient mode on a blank secret, then full verification with every
exception mapped to rejection. -/
def verify (vak vsk : Str) (r : Req) (nowIso : Str) : Bool :=
  match hGet r.headers "Authorization".data with
  | none => false
  | some authHeader =>
    if ¬ ("AWS4-HMAC-SHA256".data).isPrefixOf authHeader then false
    else
      match findCredential authHeader with
      | none => false
      | some (accessKeyId, dateStamp, region) =>
        if ¬ accessKeyId = vak then false
        else if vsk = [] ∨ jsTrim vsk = [] then true
        else
          match verifySignatureE vsk dateStamp region authHeader r nowIso with
          | .ok b => b
          | .error _ => false

/-- C6: `verify` rejects a missing or wrong-scheme `Authorization` header,
an unparseable `Credential`, and a mismatched access key; with a blank
virtual secret it accepts unconditionally after those checks; and an
exception during full signature verification (the modelled throw site is
the `URL` constructor) is caught and rejected. -/
theorem claim6_verify_gates (vak vsk : Str) (r : Req) (nowIso : Str) :
    (hGet r.headers "Authorization".data = none →
      verify vak vsk r nowIso = false) ∧
    (∀ auth, hGet r.headers "Authorization".data = some auth →
      ¬ ("AWS4-HMAC-SHA256".data).isPrefixOf auth = true →
      verify vak vsk r nowIso = false) ∧
    (∀ auth, hGet r.headers "Authorization".data = some auth →
      findCredential auth = none → verify vak vsk r nowIso = false) ∧
    (∀ auth ak ds rg, hGet r.headers "Authorization".data = some auth →
      findCredential auth = some (ak, ds, rg) → ¬ ak = vak →
      verify vak vsk r nowIso = false) ∧
    (∀ auth ak ds rg, hGet r.headers "Authorization".data = some auth →
      ("AWS4-HMAC-SHA256".data).isPrefixOf auth = true →
      findCredential auth = some (ak, ds, rg) → ak = vak →
      (vsk = [] ∨ jsTrim vsk = []) → verify vak vsk r nowIso = true) ∧
    (∀ auth ak ds rg, hGet r.headers "Authorization".data = some auth →
      ("AWS4-HMAC-SHA256".data).isPrefixOf auth = true →
      findCredential auth = some (ak, ds, rg) → ak = vak →
      ¬ (vsk = [] ∨ jsTrim vsk = []) → r.urlParse = none →
      verify vak vsk r nowIso = false) := by
  refine ⟨?_, ?_, ?_, ?_, ?_, ?_⟩
  · intro h
    unfold verify
    rw [h]
  · intro auth hauth hpre
    unfold verify
    rw [hauth]
    simp only []
    rw [if_pos hpre]
  · intro auth hauth hcred
    unfold verify
    rw [hauth]
    simp only []
    by_cases hpre : ("AWS4-HMAC-SHA256".data).isPrefixOf auth = true
    · rw [if_neg (not_not_intro hpre), hcred]
    · rw [if_pos hpre]
  · intro auth ak ds rg hauth hcred hak
    unfold verify
    rw [hauth]
    simp only []
    by_cases hpre : ("AWS4-HMAC-SHA256".data).isPrefixOf auth = true
    · rw [if_neg (not_not_intro hpre), hcred]
      simp only []
      rw [if_pos hak]
    · rw [if_pos hpre]
  · intro auth ak ds rg hauth hpre hcred hak hblank
    unfold verify
    rw [hauth]
    simp only []
    rw [if_neg (not_not_intro hpre), hcred]
    simp only []
    rw [if_neg (not_not_intro hak), if_pos hblank]
  · intro auth ak ds rg hauth hpre hcred hak hblank hurl
    unfold verify
    rw [hauth]
    simp only []
    rw [if_neg (not_not_intro hpre), hcred]
    simp only []
    rw [if_neg (not_not_intro hak), if_neg hblank]
    unfold verifySignatureE
    rw [hurl]

/-- Strict-mode outcome of `verify` as a function of the `Signature`
capture: the shared dissection behind the C5 results. -/
theorem verify_parts (vak vsk : Str) (r : Req)
    (nowIso auth ds rg sh : Str) (url : ParsedUrl)
    (hauth : hGet r.headers "Authorization".data = some auth)
    (hpre : ("AWS4-HMAC-SHA256".data).isPrefixOf auth = true)
    (hcred : findCredential auth = some (vak, ds, rg))
    (hblank : ¬ (vsk = [] ∨ jsTrim vsk = []))
    (hurl : r.urlParse = some url)
    (hsh : findSignedHeaders auth = some sh) :
    (findSignature auth = some (calcSignature vsk ds rg r url nowIso sh) →
      verify vak vsk r nowIso = true) ∧
    (∀ sig, findSignature auth = some sig →
      ¬ (calcSignature vsk ds rg r url nowIso sh = sig) →
      verify vak vsk r nowIso = false) ∧
    (findSignature auth = none → verify vak vsk r nowIso = false) := by
  have hv : verify vak vsk r nowIso
      = match verifySignatureE vsk ds rg auth r nowIso with
        | .ok b => b
        | .error _ => false := by
    unfold verify
    rw [hauth]
    simp only []
    rw [if_neg (not_not_intro hpre), hcred]
    simp only []
    rw [if_neg (not_not_intro trivial), if_neg hblank]
  refine ⟨?_, ?_, ?_⟩
  · intro hsig
    rw [hv]
    unfold verifySignatureE
    rw [hurl, hsig, hsh]
    simp
  · intro sig hsig hne
    rw [hv]
    unfold verifySignatureE
    rw [hurl, hsig, hsh]
    simp only []
    exact decide_eq_false hne
  · intro hsig
    rw [hv]
    unfold verifySignatureE
    rw [hurl, hsig]

/-- C5 (amended): under the gate hypotheses (scheme, parsed credential
with the configured access key, non-blank secret, parseable URL and
`SignedHeaders`), a request whose `Signature` capture equals the SigV4
signature recomputed from the request's own parts verifies Accepted; a
`Signature` capture different from the recomputed signature is Rejected;
and an unparseable `Signature` is Rejected. -/
theorem claim5_signature_verification (vak vsk : Str) (r : Req)
    (nowIso auth ds rg sh : Str) (url : ParsedUrl)
    (hauth : hGet r.headers "Authorization".data = some auth)
    (hpre : ("AWS4-HMAC-SHA256".data).isPrefixOf auth = true)
    (hcred : findCredential auth = some (vak, ds, rg))
    (hblank : ¬ (vsk = [] ∨ jsTrim vsk = []))
    (hurl : r.urlParse = some url)
    (hsh : findSignedHeaders auth = some sh) :
    (findSignature auth = some (calcSignature vsk ds rg r url nowIso sh) →
      verify vak vsk r nowIso = true) ∧
    (∀ sig, findSignature auth = some sig →
      ¬ (calcSignature vsk ds rg r url nowIso sh = sig) →
      verify vak vsk r nowIso = false) ∧
    (findSignature auth = none → verify vak vsk r nowIso = false) :=
  verify_parts vak vsk r nowIso auth ds rg sh url hauth hpre hcred hblank hurl hsh

def vakW : Str := "AKIDEXAMPLE".data

def vskW : Str := "secret".data

def nowW : Str := "now".data

def urlW : ParsedUrl := ⟨"/file.txt".data, []⟩

def authW : Str := ("AWS4-HMAC-SHA256 Credential=AKIDEXAMPLE/20240101/us-east-1/s3/aws4_request, SignedHeaders=host;x-amz-date;x-test, Signature=73a316c76fb722d3799a8319419cfa3ce5e438386e00e79617b68c2d3c2438d1").data

def authBadW : Str := ("AWS4-HMAC-SHA256 Credential=AKIDEXAMPLE/20240101/us-east-1/s3/aws4_request, SignedHeaders=host;x-amz-date;x-test, Signature=73a316c76fb722d3799a8319419cfa3ce5e438386e00e79617b68c2d3c2438d2").data

def authNoSigW : Str := ("AWS4-HMAC-SHA256 Credential=AKIDEXAMPLE/20240101/us-east-1/s3/aws4_request, SignedHeaders=host;x-amz-date;x-test").data

def sigBadW : Str := "73a316c76fb722d3799a8319419cfa3ce5e438386e00e79617b68c2d3c2438d2".data

def mkReqW (auth xtest : Str) : Req :=
  { method := "GET".data,
    urlParse := some urlW,
    headers := [("authorization".data, auth),
                ("host".data, "example.com".data),
                ("x-amz-date".data, "20240101T000000Z".data),
                ("x-test".data, xtest)] }

def r0W : Req := mkReqW authW ("a b".data)

def r1W : Req := mkReqW authW ("a b".data.set 1 (Char.ofNat 9))

def rBadW : Req := mkReqW authBadW ("a b".data)

def rNoSigW : Req := mkReqW authNoSigW ("a b".data)

def rNoAuthW : Req :=
  { method := "GET".data, urlParse := some urlW,
    headers := [("host".data, "example.com".data)] }

def rBadSchemeW : Req :=
  { method := "GET".data, urlParse := some urlW,
    headers := [("authorization".data, "Basic xyz".data)] }

def rNoCredW : Req :=
  { method := "GET".data, urlParse := some urlW,
    headers := [("authorization".data, "AWS4-HMAC-SHA256 nothing-here".data)] }

def authWrongKeyW : Str := ("AWS4-HMAC-SHA256 Credential=WRONG/20240101/us-east-1/s3/aws4_request, SignedHeaders=host, Signature=abc123").data

def rWrongKeyW : Req :=
  { method := "GET".data, urlParse := some urlW,
    headers := [("authorization".data, authWrongKeyW)] }

def rUrlFailW : Req :=
  { method := "GET".data, urlParse := none,
    headers := [("authorization".data, authW)] }

def dsW : Str := "20240101".data

def rgW : Str := "us-east-1".data

def shW : Str := "host;x-amz-date;x-test".data

/-- The canonical-headers block shared by `r0W`, `r1W` and `rBadW`: the
whitespace normalization maps both "a b" and the tab variant to "a b". -/
def chW : Str := "host:example.com\nx-amz-date:20240101T000000Z\nx-test:a b\n".data

def crW : Str := "GET\n/file.txt\n\nhost:example.com\nx-amz-date:20240101T000000Z\nx-test:a b\n\nhost;x-amz-date;x-test\nUNSIGNED-PAYLOAD".data

def crHashW : Str := "5f54dac05306bb9c7e66ea6d8cf5739144264684a664c266941b9fefe1ce3bb1".data

def stsW : Str := "AWS4-HMAC-SHA256\n20240101T000000Z\n20240101/us-east-1/s3/aws4_request\n5f54dac05306bb9c7e66ea6d8cf5739144264684a664c266941b9fefe1ce3bb1".data

def kSigningW : List Nat :=
  [98, 73, 83, 60, 137, 150, 224, 5, 6, 95, 81, 166, 162, 14, 223, 73,
   103, 123, 62, 48, 32, 12, 250, 60, 238, 180, 150, 129, 246, 254, 198, 106]

def sigGoodW : Str := "73a316c76fb722d3799a8319419cfa3ce5e438386e00e79617b68c2d3c2438d1".data

set_option maxRecDepth 10000 in
theorem ch_r0 : canonicalHeaders r0W.headers shW = chW := by decide

set_option maxRecDepth 10000 in
theorem ch_r1 : canonicalHeaders r1W.headers shW = chW := by decide

set_option maxRecDepth 10000 in
theorem ch_rBad : canonicalHeaders rBadW.headers shW = chW := by decide

set_option maxRecDepth 10000 in
set_option maxHeartbeats 1000000 in
theorem crHash_eq : sha256HexStr crW = crHashW := by decide

set_option maxRecDepth 10000 in
set_option maxHeartbeats 1000000 in
theorem kSigning_eq : deriveSigningKey vskW dsW rgW = kSigningW := by decide

set_option maxRecDepth 10000 in
set_option maxHeartbeats 1000000 in
theorem hmacFinal_eq : bytesToHex (hmacSha256 kSigningW (utf8 stsW)) = sigGoodW := by
  decide

set_option maxRecDepth 10000 in
theorem calc_eq_of_parts (r : Req)
    (hch : canonicalHeaders r.headers shW = chW)
    (hm : r.method = "GET".data)
    (hdt : jsOr (hGet r.headers "x-amz-date".data)
      (jsOr (hGet r.headers "date".data) nowW) = "20240101T000000Z".data)
    (hph : jsOr (hGet r.headers "x-amz-content-sha256".data)
      ("UNSIGNED-PAYLOAD".data) = "UNSIGNED-PAYLOAD".data) :
    calcSignature vskW dsW rgW r urlW nowW shW = sigGoodW := by
  have huri : encodeURI urlW.pathname = "/file.txt".data := by decide
  have hcqs : canonicalQueryString urlW.searchParams = ([] : Str) := by decide
  have hasm : ("GET".data ++ '\n' :: "/file.txt".data ++ '\n' :: ([] : Str) ++
      '\n' :: chW ++ '\n' :: shW ++ '\n' :: "UNSIGNED-PAYLOAD".data) = crW := by
    decide
  have hasm2 : ("AWS4-HMAC-SHA256".data ++ '\n' :: "20240101T000000Z".data ++
      '\n' :: (dsW ++ '/' :: rgW ++ "/s3/aws4_request".data) ++
      '\n' :: crHashW) = stsW := by decide
  simp only [calcSignature]
  rw [hm, hdt, hph, hch, huri, hcqs, hasm, crHash_eq, hasm2, kSigning_eq]
  exact hmacFinal_eq

set_option maxRecDepth 10000 in
theorem calc_r0 : calcSignature vskW dsW rgW r0W urlW nowW shW = sigGoodW :=
  calc_eq_of_parts r0W ch_r0 rfl (by decide) (by decide)

set_option maxRecDepth 10000 in
theorem calc_r1 : calcSignature vskW dsW rgW r1W urlW nowW shW = sigGoodW :=
  calc_eq_of_parts r1W ch_r1 rfl (by decide) (by decide)

set_option maxRecDepth 10000 in
theorem calc_rBad : calcSignature vskW dsW rgW rBadW urlW nowW shW = sigGoodW :=
  calc_eq_of_parts rBadW ch_rBad rfl (by decide) (by decide)

set_option maxRecDepth 10000 in
theorem claim6_verify_gates_witness :
    verify vakW vskW rNoAuthW nowW = false ∧
    verify vakW vskW rBadSchemeW nowW = false ∧
    verify vakW vskW rNoCredW nowW = false ∧
    verify vakW vskW rWrongKeyW nowW = false ∧
    verify vakW [' '] rUrlFailW nowW = true ∧
    verify vakW vskW rUrlFailW nowW = false :=
  ⟨(claim6_verify_gates vakW vskW rNoAuthW nowW).1 (by decide),
   (claim6_verify_gates vakW vskW rBadSchemeW nowW).2.1 ("Basic xyz".data)
     (by decide) (by decide),
   (claim6_verify_gates vakW vskW rNoCredW nowW).2.2.1
     ("AWS4-HMAC-SHA256 nothing-here".data) (by decide) (by decide),
   (claim6_verify_gates vakW vskW rWrongKeyW nowW).2.2.2.1 authWrongKeyW
     ("WRONG".data) ("20240101".data) ("us-east-1".data)
     (by decide) (by decide) (by decide),
   (claim6_verify_gates vakW [' '] rUrlFailW nowW).2.2.2.2.1 authW vakW
     ("20240101".data) ("us-east-1".data)
     (by decide) (by decide) (by decide) rfl (by decide),
   (claim6_verify_gates vakW vskW rUrlFailW nowW).2.2.2.2.2 authW vakW
     ("20240101".data) ("us-east-1".data)
     (by decide) (by decide) (by decide) rfl (by decide) rfl⟩

set_option maxRecDepth 10000 in
theorem claim5_signature_verification_witness :
    verify vakW vskW r0W nowW = true ∧
    verify vakW vskW rBadW nowW = false ∧
    verify vakW vskW rNoSigW nowW = false :=
  ⟨(claim5_signature_verification vakW vskW r0W nowW authW dsW rgW shW urlW
      (by decide) (by decide) (by decide) (by decide) rfl (by decide)).1
      (by rw [calc_r0]; decide),
   (claim5_signature_verification vakW vskW rBadW nowW authBadW dsW rgW shW urlW
      (by decide) (by decide) (by decide) (by decide) rfl (by decide)).2.1
      sigBadW (by decide) (by rw [calc_rBad]; decide),
   (claim5_signature_verification vakW vskW rNoSigW nowW authNoSigW dsW rgW shW urlW
      (by decide) (by decide) (by decide) (by decide) rfl (by decide)).2.2
      (by decide)⟩

set_option maxRecDepth 10000 in
/-- C5 counterexample: two requests that differ in exactly one byte of the
signed header `x-test` (a space replaced by a tab at index 1) are BOTH
Accepted with the same signature, because the verifier collapses runs of
whitespace in header values before signing. -/
theorem claim5_counterexample :
    verify vakW vskW r0W nowW = true ∧
    verify vakW vskW r1W nowW = true ∧
    r1W.method = r0W.method ∧
    r1W.urlParse = r0W.urlParse ∧
    hGet r0W.headers ("x-test".data) = some ("a b".data) ∧
    hGet r1W.headers ("x-test".data) = some ("a b".data.set 1 (Char.ofNat 9)) ∧
    ¬ ("a b".data = "a b".data.set 1 (Char.ofNat 9)) ∧
    ("a b".data).length = ("a b".data.set 1 (Char.ofNat 9)).length :=
  ⟨(verify_parts vakW vskW r0W nowW authW dsW rgW shW urlW
      (by decide) (by decide) (by decide) (by decide) rfl (by decide)).1
      (by rw [calc_r0]; decide),
   (verify_parts vakW vskW r1W nowW authW dsW rgW shW urlW
      (by decide) (by decide) (by decide) (by decide) rfl (by decide)).1
      (by rw [calc_r1]; decide),
   rfl, rfl, by decide, by decide, by decide, by decide⟩

end B2CF
